import Mathlib

/-!
Shallow embedding of the yaml-to-imgdb enrichment pipeline
(`1-find-images.py`, `2-process-pngs.py`, `3-upload-to-ibb.py`, `run-all.py`).

YAML values are modelled by the inductive `YVal`; Python dicts are modelled as
association lists (`List (String × key)`) preserving insertion order, with
`aget`/`aset` reproducing Python dict read/write semantics (update in place on
an existing key, append otherwise).  Network and filesystem effects are
modelled by explicit environment records and by threading the relevant state
(sets of file paths, written yaml contents, a count of outbound HTTP calls)
through each stage function.
-/

/-- A YAML value as produced by `yaml.safe_load`.  `yBool` is separate from
`yInt` but note that Python treats `bool` as a subclass of `int`, which the
embedding of `unify_details` reproduces. -/
inductive YVal where
  | yInt (n : Int)
  | yStr (s : String)
  | yBool (b : Bool)
  | yNull
  | yList (items : List YVal)
  | yDict (entries : List (String × YVal))

/-- Python `d[k]` / `k in d` read: first entry with the given key. -/
def aget {α : Type} : List (String × α) → String → Option α
  | [], _ => none
  | (k, v) :: d, key => if k = key then some v else aget d key

/-- Python `k in d`. -/
def ahas {α : Type} (d : List (String × α)) (k : String) : Bool :=
  (aget d k).isSome

/-- Python `d[k] = v`: update the entry in place if the key is present,
append a new entry otherwise. -/
def aset {α : Type} : List (String × α) → String → α → List (String × α)
  | [], key, v => [(key, v)]
  | (k, w) :: d, key, v =>
    if k = key then (k, v) :: d else (k, w) :: aset d key v

/-- Python `d.update(m)`: set every entry of `m` into `d`, in order. -/
def aupdate {α : Type} (d m : List (String × α)) : List (String × α) :=
  m.foldl (fun d kv => aset d kv.1 kv.2) d

/-- Does `pat` occur at the start of `l`?  (Helper for Python `in`/`startswith`.) -/
def chunkAt : List Char → List Char → Bool
  | [], _ => true
  | _ :: _, [] => false
  | p :: ps, c :: cs => p == c && chunkAt ps cs

/-- Python substring test `pat in s` (contiguous occurrence). -/
def hasChunk (pat : List Char) : List Char → Bool
  | [] => chunkAt pat []
  | c :: cs => chunkAt pat (c :: cs) || hasChunk pat cs

/-- Python `pat in s` on strings. -/
def strIn (pat s : String) : Bool := hasChunk pat.toList s.toList

/-- Python `s.startswith(pat)`. -/
def startsW (s pat : String) : Bool := chunkAt pat.toList s.toList

/-- Membership in the character class `[a-z0-9]` used by `sanitize_name`'s
regular expression. -/
def isAln (c : Char) : Bool := ('a' ≤ c && c ≤ 'z') || ('0' ≤ c && c ≤ '9')

/-- State-machine embedding of `re.sub(r'[^a-z0-9]+', '-', ·)`: each maximal
run of characters outside `[a-z0-9]` becomes a single `'-'`.  The flag records
whether we are inside a non-alphanumeric run whose dash was already emitted. -/
def subRunsGo : Bool → List Char → List Char
  | _, [] => []
  | inRun, c :: cs =>
    if isAln c then c :: subRunsGo false cs
    else if inRun then subRunsGo true cs
    else '-' :: subRunsGo true cs

/-- Embeds `re.sub(r'[^a-z0-9]+', '-', ·)` over a character list. -/
def subRuns (l : List Char) : List Char := subRunsGo false l

/-- Remove trailing `'-'` characters (structural form, no `reverse`). -/
def stripEnd : List Char → List Char
  | [] => []
  | c :: cs =>
    match stripEnd cs with
    | [] => if c == '-' then [] else [c]
    | r => c :: r

/-- Python `s.strip('-')`: remove leading and trailing dashes. -/
def stripD (l : List Char) : List Char :=
  stripEnd (l.dropWhile (· == '-'))

/-- Embeds `sanitize_name` from `1-find-images.py` / `3-upload-to-ibb.py`:
lowercase, replace each maximal `[^a-z0-9]+` run with `'-'`, strip dashes.
(`str.lower` is modelled on ASCII, matching `Char.toLower`.) -/
def sanitize_name (name : String) : String :=
  String.mk (stripD (subRuns (name.toList.map Char.toLower)))

/-- The maximal `[a-z0-9]` runs of a character list, with an accumulator
holding the current (reversed) pending run. -/
def tokensGo (cur : List Char) : List Char → List (List Char)
  | [] => if cur = [] then [] else [cur.reverse]
  | c :: cs =>
    if isAln c then tokensGo (c :: cur) cs
    else if cur = [] then tokensGo [] cs
    else cur.reverse :: tokensGo [] cs

/-- The maximal alphanumeric runs of a character list. -/
def alnumTokens (l : List Char) : List (List Char) := tokensGo [] l

/-- The alphanumeric tokens of a name after lowercasing: the part of the
input that `sanitize_name` depends on. -/
def slugTokens (s : String) : List (List Char) :=
  alnumTokens (s.toList.map Char.toLower)

/-- Join token lists with single dashes. -/
def joinDash : List (List Char) → List Char
  | [] => []
  | [t] => t
  | t :: ts => t ++ '-' :: joinDash ts

/-- Embeds `unify_details` from `3-upload-to-ibb.py`.  A dict is returned as is; an
int or str (or bool, an `int` in Python) becomes `{"year": v}`; anything else
becomes `{"year": ""}`. -/
def unify_details : YVal → List (String × YVal)
  | .yDict d => d
  | .yInt n => [("year", .yInt n)]
  | .yBool b => [("year", .yBool b)]
  | .yStr s => [("year", .yStr s)]
  | .yNull => [("year", .yStr "")]
  | .yList _ => [("year", .yStr "")]

/-- The product-name cleanup in `fix_yaml_structure`:
`key.lstrip("_").replace("_", " ")`. -/
def cleanProductName (k : String) : String :=
  String.mk ((k.toList.dropWhile (· == '_')).map (fun c => if c == '_' then ' ' else c))

/-- Embeds `value if isinstance(value, dict) else \x7b\x7d`. -/
def dictEntriesOf : YVal → List (String × YVal)
  | .yDict m => m
  | _ => []

/-- Set `acc[dh][key] = v` where `acc[dh]` is a dict.  In the source this
state is guaranteed (`fix_yaml_structure` and `create_datatable` only store
dicts under `dh` before reaching this operation); the non-dict fallback is
unreachable there and leaves `acc` unchanged. -/
def dictInsertAt (acc : List (String × YVal)) (dh key : String) (v : YVal) :
    List (String × YVal) :=
  match aget acc dh with
  | some (.yDict m) => aset acc dh (.yDict (aset m key v))
  | _ => acc

/-- One step of `fix_yaml_structure`'s scan over the fragment's keys.  State:
the rebuilt content and the current design house (`None` initially). -/
def fixStep (st : List (String × YVal) × Option String) (kv : String × YVal) :
    List (String × YVal) × Option String :=
  let acc := st.1
  let cur := st.2
  let k := kv.1
  let v := kv.2
  if startsW k "__" then
    match cur with
    | none =>
      let acc := if ahas acc "unknown" then acc else aset acc "unknown" (.yDict [])
      (dictInsertAt acc "unknown" (cleanProductName k) v, some "unknown")
    | some dh => (dictInsertAt acc dh (cleanProductName k) v, some dh)
  else
    (aset acc k (.yDict (dictEntriesOf v)), some k)

/-- Embeds `fix_yaml_structure` from `3-upload-to-ibb.py`: reattach `"__"`-prefixed
top-level keys to the most recent design house. -/
def fix_yaml_structure (content : List (String × YVal)) : List (String × YVal) :=
  (content.foldl fixStep ([], none)).1

/-- Attach a list of prefixed product entries (cleaned names) into a product map. -/
def attachAll (m : List (String × YVal)) (entries : List (String × YVal)) :
    List (String × YVal) :=
  entries.foldl (fun m kv => aset m (cleanProductName kv.1) kv.2) m

/-- Python `str(·)` as used in the f-string path construction, for the value
kinds a `year` can actually take (int, str; plus schematic renderings for the
remaining constructors, which well-formed catalogs never put in a path and
which both stages would render identically anyway). -/
def pyStr : YVal → String
  | .yInt n => toString n
  | .yStr s => s
  | .yBool b => if b then "True" else "False"
  | .yNull => "None"
  | .yDict _ => "{dict}"
  | .yList _ => "[list]"

/-- The idempotency marker test from `upload_entry`:
`"image" in details and "ibb.co" in details["image"]`.  (A non-string `image`
value would raise a `TypeError` in Python; the pipeline only ever stores
string URLs there, and the embedding returns `false` for that unreached case.) -/
def hasIbbImage (d : List (String × YVal)) : Bool :=
  match aget d "image" with
  | some (.yStr s) => strIn "ibb.co" s
  | _ => false

/-- Embeds the path `PROCESSED_DIR / dh_sanitized / (product_sanitized)-(year).png` with
`year = details.get("year", "")`. -/
def pngPathFor (design_house product : String) (d : List (String × YVal)) : String :=
  "data-store-processed/" ++ sanitize_name design_house ++ "/" ++
    sanitize_name product ++ "-" ++ pyStr ((aget d "year").getD (.yStr "")) ++ ".png"

/-- The effect environment visible to one `upload_entry` call: whether
`IBB_API_KEY` is falsy, which processed PNG files exist, and the outcome of
the imgbb POST for a given PNG path (`none` models an exception anywhere in
the `try` block, `some url` a successful response whose `data.url` is `url`). -/
structure UploadEnv where
  ibbKeyFalsy : Bool
  pngExists : String → Bool
  uploadResult : String → Option String

/-- Embeds `upload_entry` from `3-upload-to-ibb.py`.  Returns the (possibly updated)
details, the `changed` flag, and whether the upload `try` block was entered
(i.e. whether a network upload was attempted). -/
def upload_entry (env : UploadEnv) (design_house product : String) (details : YVal) :
    YVal × Bool × Bool :=
  if env.ibbKeyFalsy then (details, false, false)
  else
    let d := unify_details details
    if hasIbbImage d then (.yDict d, false, false)
    else
      let png_path := pngPathFor design_house product d
      if env.pngExists png_path then
        match env.uploadResult png_path with
        | some url => (.yDict (aset d "image" (.yStr url)), true, true)
        | none => (.yDict d, false, true)
      else (.yDict d, false, false)

/-- The per-design-house fan-out of `process_yaml_file`: each product entry is
handled by an independent `upload_entry` task and results are keyed by
product.  (The source collects futures in completion order; the embedding
determinizes to submission order, which is immaterial for the catalog as a
mapping.)  Returns the updated product map, whether any task reported a
change, and how many tasks attempted an upload. -/
def processProducts (env : UploadEnv) (dh : String) (ps : List (String × YVal)) :
    List (String × YVal) × Bool × Nat :=
  (ps.map (fun pv => (pv.1, (upload_entry env dh pv.1 pv.2).1)),
   ps.any (fun pv => (upload_entry env dh pv.1 pv.2).2.1),
   (ps.filter (fun pv => (upload_entry env dh pv.1 pv.2).2.2)).length)

/-- Embeds `process_yaml_file` on already-parsed content: repair the structure, then
process each design house whose value is a dict (others are left untouched).
Returns the updated content, the `changed_any` flag, and the number of upload
attempts. -/
def process_yaml_content (env : UploadEnv) (content : List (String × YVal)) :
    List (String × YVal) × Bool × Nat :=
  let fixed := fix_yaml_structure content
  (fixed.map (fun dhv =>
     match dhv.2 with
     | .yDict ps => (dhv.1, YVal.yDict (processProducts env dhv.1 ps).1)
     | _ => dhv),
   fixed.any (fun dhv =>
     match dhv.2 with
     | .yDict ps => (processProducts env dhv.1 ps).2.1
     | _ => false),
   (fixed.map (fun dhv =>
     match dhv.2 with
     | .yDict ps => (processProducts env dhv.1 ps).2.2
     | _ => 0)).sum)

/-- One design-house entry of one fragment folded into the datatable
accumulator (`create_datatable`'s inner loop): a non-dict value is skipped,
otherwise the house is created if absent and every product entry is written. -/
def mergeHouse (dt : List (String × YVal)) (dhv : String × YVal) :
    List (String × YVal) :=
  match dhv.2 with
  | .yDict ps =>
    let dt := if ahas dt dhv.1 then dt else aset dt dhv.1 (.yDict [])
    ps.foldl (fun dt pv => dictInsertAt dt dhv.1 pv.1 pv.2) dt
  | _ => dt

/-- One fragment folded into the datatable accumulator. -/
def mergeFragInto (dt : List (String × YVal)) (content : List (String × YVal)) :
    List (String × YVal) :=
  content.foldl mergeHouse dt

/-- Embeds `create_datatable` from `3-upload-to-ibb.py`, on the parsed contents of
the processed fragments in glob order. -/
def create_datatable (frags : List (List (String × YVal))) : List (String × YVal) :=
  frags.foldl mergeFragInto []

/-- Read the merged datatable at (design house, product). -/
def dtGet (dt : List (String × YVal)) (dh p : String) : Option YVal :=
  match aget dt dh with
  | some (.yDict d) => aget d p
  | _ => none

/-- Embeds `load_products` from `1-find-images.py`: merge all fragments (a parse
failure skips the whole fragment); note that it applies no structure repair. -/
def load_products (frags : List (Except String (List (String × YVal)))) :
    List (String × List (String × YVal)) :=
  frags.foldl (fun products frag =>
    match frag with
    | .error _ => products
    | .ok content =>
      content.foldl (fun products dhItems =>
        let products :=
          if ahas products dhItems.1 then products else aset products dhItems.1 []
        match dhItems.2 with
        | .yDict m =>
          match aget products dhItems.1 with
          | some d => aset products dhItems.1 (aupdate d m)
          | none => products
        | _ => products) products) []

/-- The transient status codes of the shared session's retry strategy
(`status_forcelist=[429, 500, 502, 503, 504]`). -/
def retryForcelist : List Nat := [429, 500, 502, 503, 504]

/-- Value of `Retry(total=...)` configured on the shared session. -/
def retryTotal : Nat := 3

/-- urllib3 `Retry` semantics for status-based retries: given the stream of
statuses the server would answer, perform an attempt; on a forcelist status
consume one retry and try again, raising `MaxRetryError` (modelled `.error`)
once the retry budget is exhausted.  Returns (number of attempts performed,
final outcome).  `total=n` budgets `n` retries, i.e. up to `n + 1` attempts. -/
def runWithRetry (retriesLeft : Nat) : List Nat → Nat × Except Unit Nat
  | [] => (0, .error ())
  | s :: rest =>
    if s ∈ retryForcelist then
      match retriesLeft with
      | 0 => (1, .error ())
      | r + 1 =>
        let out := runWithRetry r rest
        (out.1 + 1, out.2)
    else (1, .ok s)

/-- An outbound HTTP call site of the pipeline and whether the source routes
it through the shared retry-mounted session.  From the source: stage 1 uses
`GoogleSearch(...).get_dict()` (serpapi client) and `SESSION.get(img_url)`;
stage 2 uses `client.run(...)` (replicate client) and a bare
`requests.get(output_url)`; stage 3 uses `SESSION.post(...)`. -/
structure HttpCallSite where
  stage : String
  viaRetrySession : Bool

/-- Every outbound HTTP call site of the pipeline. -/
def pipelineHttpCalls : List HttpCallSite :=
  [⟨"stage1 serpapi image search", false⟩,
   ⟨"stage1 image download", true⟩,
   ⟨"stage2 replicate background removal", false⟩,
   ⟨"stage2 processed image download", false⟩,
   ⟨"stage3 imgbb upload", true⟩]

/-- The `REPLICATE_API_TOKEN` check at the top of `2-process-pngs.py`: the
stage raises before touching any file when the token is absent. -/
def stage2_startup (hasReplicateToken : Bool) : Except String Unit :=
  if hasReplicateToken then .ok ()
  else .error "REPLICATE_API_TOKEN environment variable not set"

/-- The deterministic external world of one pipeline run: credentials,
search results keyed by query, and per-artifact success of the download,
background-removal, and upload calls. -/
structure Env where
  ibbKeyFalsy : Bool
  hasReplicateToken : Bool
  searchResult : String → Option String
  downloadOk : String → Bool
  replicateOk : String → Bool
  pngFetchOk : String → Bool
  uploadResult : String → Option String

/-- The filesystem state the pipeline reads and writes: image files under
`data-store`, processed images and output yaml files under
`data-store-processed`, and the (read-only) source fragments. -/
structure FS where
  jpgs : List String
  pngs : List String
  srcYamls : List (String × List (String × YVal))
  outYamls : List (String × List (String × YVal))

/-- Embeds the path `DATA_DIR / dh_sanitized / (product_sanitized)-(year).jpg`. -/
def jpgPath (dh product : String) (year : YVal) : String :=
  "data-store/" ++ sanitize_name dh ++ "/" ++ sanitize_name product ++ "-" ++
    pyStr year ++ ".jpg"

/-- The stage-1 search query: the design house, the quoted product name, and
the suffix "large photo with white background". -/
def searchQuery (dh product : String) : String :=
  dh ++ " \"" ++ product ++ "\" large photo with white background"

/-- One stage-1 `download_image` task over (jpg set, HTTP call count): skip if
the file exists; otherwise search (one call) and, when a result is found,
fetch it (one more call), writing the file unless the fetch raises. -/
def stage1Step (env : Env) (st : List String × Nat) (t : String × String × YVal) :
    List String × Nat :=
  let path := jpgPath t.1 t.2.1 t.2.2
  if st.1.contains path then st
  else
    match env.searchResult (searchQuery t.1 t.2.1) with
    | none => (st.1, st.2 + 1)
    | some url =>
      if env.downloadOk url then (path :: st.1, st.2 + 2) else (st.1, st.2 + 2)

/-- The stage-1 task list: one (design house, product, raw year value) per
entry of the merged catalog. -/
def stage1Tasks (srcYamls : List (String × List (String × YVal))) :
    List (String × String × YVal) :=
  (load_products (srcYamls.map (fun nf => Except.ok nf.2))).flatMap
    (fun dhItems => dhItems.2.map (fun py => (dhItems.1, py.1, py.2)))

/-- Stage 1 (`1-find-images.py`): returns the jpg set and its HTTP call count. -/
def stage1 (env : Env) (fs : FS) : List String × Nat :=
  (stage1Tasks fs.srcYamls).foldl (stage1Step env) (fs.jpgs, 0)

/-- Embeds `os.path.splitext(...)[0]`: drop the extension after the last dot (the
pipeline's path segments contain no other dots). -/
def splitextRoot (l : List Char) : List Char :=
  if l.contains '.' then ((l.reverse.dropWhile (fun c => !(c == '.'))).drop 1).reverse
  else l

/-- The stage-2 destination for a source image: mirror the path under
`data-store-processed` (dropping the 11-character `data-store/` root) with the
extension normalized to `.png`. -/
def pngOf (j : String) : String :=
  "data-store-processed/" ++ String.mk (splitextRoot (j.toList.drop 11)) ++ ".png"

/-- One stage-2 item over (png set, HTTP call count): skip if the destination
exists; otherwise call replicate (one call) and, on success, fetch the
processed image (one more call), writing the file only when both succeed. -/
def stage2Step (env : Env) (st : List String × Nat) (j : String) : List String × Nat :=
  let dest := pngOf j
  if st.1.contains dest then st
  else if env.replicateOk j then
    if env.pngFetchOk j then (dest :: st.1, st.2 + 2) else (st.1, st.2 + 2)
  else (st.1, st.2 + 1)

/-- Stage 2 (`2-process-pngs.py`), assuming the startup token check passed. -/
def stage2 (env : Env) (fs : FS) : List String × Nat :=
  fs.jpgs.foldl (stage2Step env) (fs.pngs, 0)

/-- The `UploadEnv` stage 3 actually runs with, derived from the pipeline
environment and the current set of processed PNG files. -/
def uploadEnvOf (env : Env) (pngs : List String) : UploadEnv :=
  ⟨env.ibbKeyFalsy, fun p => pngs.contains p, env.uploadResult⟩

/-- Stage 3 (`3-upload-to-ibb.py` `main`): process every source fragment
(reading from `data-store`, writing the result under the same name in
`data-store-processed`), then merge every yaml file in `data-store-processed`
— including a `datatable.yaml` left by a previous run — into the datatable
and write it.  Returns the new state and the stage's HTTP call count. -/
def stage3Frag (uenv : UploadEnv)
    (oc : List (String × List (String × YVal)) × Nat)
    (nf : String × List (String × YVal)) :
    List (String × List (String × YVal)) × Nat :=
  let r := process_yaml_content uenv nf.2
  (aset oc.1 nf.1 r.1, oc.2 + r.2.2)

def stage3 (env : Env) (fs : FS) : FS × Nat :=
  let uenv := uploadEnvOf env fs.pngs
  let outPair := fs.srcYamls.foldl (stage3Frag uenv) (fs.outYamls, 0)
  let dt := create_datatable (outPair.1.map (fun nf => nf.2))
  ({ fs with outYamls := aset outPair.1 "datatable.yaml" dt }, outPair.2)

/-- One full `run-all.py` run: stage 1; then, if the replicate token is
present, stages 2 and 3; a missing token aborts the remaining stages (the
driver exits non-zero).  Returns the final state, the total number of
outbound HTTP calls, and whether the pipeline completed. -/
def runPipeline (env : Env) (fs : FS) : FS × Nat × Bool :=
  let s1 := stage1 env fs
  let fs1 := { fs with jpgs := s1.1 }
  if env.hasReplicateToken then
    let s2 := stage2 env fs1
    let fs2 := { fs1 with pngs := s2.1 }
    let s3 := stage3 env fs2
    (s3.1, s1.2 + s2.2 + s3.2, true)
  else (fs1, s1.2, false)

/-! ### Association-list lemmas -/

/-- The keys of an association list. -/
def akeys {α : Type} (d : List (String × α)) : List String := d.map Prod.fst

theorem aget_aset_self {α : Type} (d : List (String × α)) (k : String) (v : α) :
    aget (aset d k v) k = some v := by
  induction d with
  | nil => simp [aset, aget]
  | cons kv d ih =>
    obtain ⟨k0, w⟩ := kv
    by_cases h : k0 = k
    · subst h
      simp [aset, aget]
    · simp [aset, aget, h, ih]

theorem aget_aset_ne {α : Type} (d : List (String × α)) (k k' : String) (v : α)
    (h : k' ≠ k) : aget (aset d k v) k' = aget d k' := by
  have hne : ¬ k = k' := fun hh => h hh.symm
  induction d with
  | nil => simp [aset, aget, hne]
  | cons kv d ih =>
    obtain ⟨k0, w⟩ := kv
    by_cases h0 : k0 = k
    · subst h0
      simp [aset, aget, hne]
    · simp only [aset, if_neg h0, aget]
      by_cases h1 : k0 = k'
      · simp [h1]
      · simp [h1, ih]

theorem aset_aset_self {α : Type} (d : List (String × α)) (k : String) (v w : α) :
    aset (aset d k v) k w = aset d k w := by
  induction d with
  | nil => simp [aset]
  | cons kv d ih =>
    obtain ⟨k0, u⟩ := kv
    by_cases h : k0 = k
    · simp [aset, h]
    · simp [aset, h, ih]

theorem aset_eq_of_aget {α : Type} (d : List (String × α)) (k : String) (v : α)
    (h : aget d k = some v) : aset d k v = d := by
  induction d with
  | nil => simp [aget] at h
  | cons kv d ih =>
    obtain ⟨k0, w⟩ := kv
    by_cases h0 : k0 = k
    · subst h0
      simp [aget] at h
      simp [aset, h]
    · simp only [aget, if_neg h0] at h
      simp [aset, h0, ih h]

theorem aget_eq_none_of_not_mem {α : Type} (d : List (String × α)) (k : String)
    (h : k ∉ akeys d) : aget d k = none := by
  induction d with
  | nil => rfl
  | cons kv d ih =>
    obtain ⟨k0, w⟩ := kv
    simp only [akeys, List.map_cons, List.mem_cons, not_or] at h
    have h1 : ¬ k0 = k := fun hh => h.1 hh.symm
    simp only [aget, if_neg h1]
    exact ih (by simpa [akeys] using h.2)

theorem ahas_iff_mem_akeys {α : Type} (d : List (String × α)) (k : String) :
    ahas d k = true ↔ k ∈ akeys d := by
  induction d with
  | nil => simp [ahas, aget, akeys]
  | cons kv d ih =>
    obtain ⟨k0, w⟩ := kv
    by_cases h : k0 = k
    · subst h
      simp [ahas, aget, akeys]
    · have h2 : ahas ((k0, w) :: d) k = ahas d k := by
        simp [ahas, aget, h]
      have h3 : ¬ k = k0 := fun hh => h hh.symm
      rw [h2, ih]
      show _ ↔ k ∈ k0 :: akeys d
      simp [h3]

theorem aget_of_mem_nodup {α : Type} (d : List (String × α)) (k : String) (v : α)
    (hd : (akeys d).Nodup) (hm : (k, v) ∈ d) : aget d k = some v := by
  induction d with
  | nil => simp at hm
  | cons kv d ih =>
    obtain ⟨k0, w⟩ := kv
    simp only [akeys, List.map_cons, List.nodup_cons] at hd
    rcases List.mem_cons.mp hm with h | h
    · injection h with h1 h2
      subst h1
      subst h2
      simp [aget]
    · have hk0 : ¬ k0 = k := by
        intro hh
        subst hh
        exact hd.1 (List.mem_map_of_mem Prod.fst h)
      simp only [aget, if_neg hk0]
      exact ih (by simpa [akeys] using hd.2) h

theorem akeys_aset {α : Type} (d : List (String × α)) (k : String) (v : α) :
    akeys (aset d k v) = if k ∈ akeys d then akeys d else akeys d ++ [k] := by
  induction d with
  | nil => simp [aset, akeys]
  | cons kv d ih =>
    obtain ⟨k0, w⟩ := kv
    by_cases h : k0 = k
    · subst h
      simp [aset, akeys]
    · have h1 : ¬ k = k0 := fun hh => h hh.symm
      have hstep : aset ((k0, w) :: d) k v = (k0, w) :: aset d k v := by
        simp [aset, h]
      rw [hstep]
      show k0 :: akeys (aset d k v) = _
      rw [ih]
      by_cases hm : k ∈ akeys d
      · rw [if_pos hm, if_pos (show k ∈ akeys ((k0, w) :: d) from
          List.mem_cons_of_mem _ hm)]
        rfl
      · rw [if_neg hm, if_neg (show k ∉ akeys ((k0, w) :: d) from by
          simp only [akeys, List.map_cons, List.mem_cons, not_or]
          exact ⟨h1, by simpa [akeys] using hm⟩)]
        rfl

theorem nodup_akeys_aset {α : Type} (d : List (String × α)) (k : String) (v : α)
    (h : (akeys d).Nodup) : (akeys (aset d k v)).Nodup := by
  rw [akeys_aset]
  by_cases hm : k ∈ akeys d
  · rwa [if_pos hm]
  · rw [if_neg hm]
    exact List.Nodup.append h (List.nodup_singleton k)
      (fun a ha hak => hm ((List.mem_singleton.mp hak) ▸ ha))

theorem aupdate_cons {α : Type} (d : List (String × α)) (kv : String × α)
    (m : List (String × α)) :
    aupdate d (kv :: m) = aupdate (aset d kv.1 kv.2) m := rfl

theorem aget_aupdate_of_not_mem {α : Type} (m : List (String × α)) :
    ∀ (d : List (String × α)) (k : String), k ∉ akeys m →
      aget (aupdate d m) k = aget d k := by
  induction m with
  | nil => intro d k _; rfl
  | cons kv m ih =>
    intro d k h
    obtain ⟨k0, w⟩ := kv
    simp only [akeys, List.map_cons, List.mem_cons, not_or] at h
    rw [aupdate_cons, ih _ _ (by simpa [akeys] using h.2)]
    exact aget_aset_ne d k0 k w h.1

theorem aget_aupdate_of_mem {α : Type} (m : List (String × α)) :
    ∀ (d : List (String × α)) (k : String) (v : α), (akeys m).Nodup → (k, v) ∈ m →
      aget (aupdate d m) k = some v := by
  induction m with
  | nil => intro d k v _ hm; simp at hm
  | cons kv m ih =>
    intro d k v hd hm
    obtain ⟨k0, w⟩ := kv
    simp only [akeys, List.map_cons, List.nodup_cons] at hd
    rcases List.mem_cons.mp hm with h | h
    · injection h with h1 h2
      subst h1
      subst h2
      have hnot : k ∉ akeys m := by simpa [akeys] using hd.1
      rw [aupdate_cons, aget_aupdate_of_not_mem m _ _ hnot]
      exact aget_aset_self d k v
    · rw [aupdate_cons]
      exact ih _ _ _ (by simpa [akeys] using hd.2) h

theorem nodup_akeys_aupdate {α : Type} (m : List (String × α)) :
    ∀ d : List (String × α), (akeys d).Nodup → (akeys (aupdate d m)).Nodup := by
  induction m with
  | nil => intro d h; exact h
  | cons kv m ih =>
    intro d h
    rw [aupdate_cons]
    exact ih _ (nodup_akeys_aset _ _ _ h)

theorem mem_akeys_aset {α : Type} (d : List (String × α)) (k0 : String) (v : α)
    (k : String) (h : k ∈ akeys (aset d k0 v)) : k ∈ akeys d ∨ k = k0 := by
  rw [akeys_aset] at h
  by_cases hm : k0 ∈ akeys d
  · rw [if_pos hm] at h
    exact Or.inl h
  · rw [if_neg hm] at h
    rcases List.mem_append.mp h with h | h
    · exact Or.inl h
    · exact Or.inr (List.mem_singleton.mp h)

theorem mem_akeys_dictInsertAt (acc : List (String × YVal)) (dh key : String)
    (v : YVal) (k : String) (h : k ∈ akeys (dictInsertAt acc dh key v)) :
    k ∈ akeys acc ∨ k = dh := by
  unfold dictInsertAt at h
  split at h
  · exact mem_akeys_aset _ _ _ _ h
  · exact Or.inl h

/-- No key of the rebuilt content of `fix_yaml_structure`'s fold carries the
`"__"` marker, given that the accumulator and the current-house register do
not. -/
theorem fixfold_keys (content : List (String × YVal)) :
    ∀ (acc : List (String × YVal)) (cur : Option String),
      (∀ k ∈ akeys acc, startsW k "__" = false) →
      (∀ dh, cur = some dh → startsW dh "__" = false) →
      ∀ k ∈ akeys (content.foldl fixStep (acc, cur)).1, startsW k "__" = false := by
  induction content with
  | nil => intro acc cur h1 _ k hk; exact h1 k hk
  | cons kv content ih =>
    intro acc cur h1 h2
    cases hpre : startsW kv.1 "__" with
    | false =>
      have hstep : fixStep (acc, cur) kv =
          (aset acc kv.1 (.yDict (dictEntriesOf kv.2)), some kv.1) := by
        simp [fixStep, hpre]
      rw [List.foldl_cons, hstep]
      refine ih _ _ ?_ ?_
      · intro k hk
        rcases mem_akeys_aset _ _ _ _ hk with h | h
        · exact h1 k h
        · exact h ▸ hpre
      · intro dh hdh
        injection hdh with hdh
        exact hdh ▸ hpre
    | true =>
      match cur with
      | none =>
        have hstep : fixStep (acc, none) kv =
            (dictInsertAt (if ahas acc "unknown" then acc
              else aset acc "unknown" (.yDict [])) "unknown"
              (cleanProductName kv.1) kv.2, some "unknown") := by
          simp [fixStep, hpre]
        rw [List.foldl_cons, hstep]
        refine ih _ _ ?_ ?_
        · intro k hk
          rcases mem_akeys_dictInsertAt _ _ _ _ _ hk with h | h
          · by_cases hu : ahas acc "unknown" = true
            · rw [if_pos hu] at h
              exact h1 k h
            · rw [if_neg hu] at h
              rcases mem_akeys_aset _ _ _ _ h with h | h
              · exact h1 k h
              · exact h ▸ rfl
          · exact h ▸ rfl
        · intro dh hdh
          injection hdh with hdh
          exact hdh ▸ rfl
      | some dh0 =>
        have hstep : fixStep (acc, some dh0) kv =
            (dictInsertAt acc dh0 (cleanProductName kv.1) kv.2, some dh0) := by
          simp [fixStep, hpre]
        rw [List.foldl_cons, hstep]
        refine ih _ _ ?_ ?_
        · intro k hk
          rcases mem_akeys_dictInsertAt _ _ _ _ _ hk with h | h
          · exact h1 k h
          · exact h ▸ h2 dh0 rfl
        · intro dh hdh
          injection hdh with hdh
          exact hdh ▸ h2 dh0 rfl

/-- Retry exhaustion: with `n` retries left and only transient statuses on
offer, exactly `n + 1` attempts are made before `MaxRetryError`. -/
theorem runWithRetry_exhausts (n : Nat) :
    ∀ rest : List Nat, (∀ x ∈ rest, x ∈ retryForcelist) → n + 1 ≤ rest.length →
      runWithRetry n rest = (n + 1, .error ()) := by
  induction n with
  | zero =>
    intro rest hall hlen
    match rest, hlen with
    | s :: rest', _ =>
      have hs : s ∈ retryForcelist := hall s (List.mem_cons_self s rest')
      simp [runWithRetry, hs]
  | succ n ih =>
    intro rest hall hlen
    match rest, hlen with
    | s :: rest', hlen =>
      have hs : s ∈ retryForcelist := hall s (List.mem_cons_self s rest')
      have hrec := ih rest' (fun x hx => hall x (List.mem_cons_of_mem _ hx))
        (by simp at hlen; omega)
      simp [runWithRetry, hs, hrec]

/-! ### Claim theorems -/

/-- C1 counterexample: `unify_details` on a dict without a `year` key returns
a record without a `year` key, contradicting the claim that every result
contains one. -/
theorem unify_details_dict_can_lack_year :
    ahas (unify_details (.yDict [("image", .yStr "https://i.ibb.co/x.png")])) "year"
      = false := rfl

/-- C1 (amended): `unify_details` is pure and total with exactly one result
per raw value; an int, str, or bool input `v` (Python treats `bool` as `int`)
yields `{year: v}`; a null or list input yields `{year: ""}`; a dict input is
returned unchanged, so its result contains a `year` key exactly when the
input dict does. -/
theorem unify_details_total_cases :
    (∀ n, unify_details (.yInt n) = [("year", .yInt n)]) ∧
    (∀ s, unify_details (.yStr s) = [("year", .yStr s)]) ∧
    (∀ b, unify_details (.yBool b) = [("year", .yBool b)]) ∧
    unify_details .yNull = [("year", .yStr "")] ∧
    (∀ xs, unify_details (.yList xs) = [("year", .yStr "")]) ∧
    (∀ d, unify_details (.yDict d) = d) ∧
    (∀ d, ahas (unify_details (.yDict d)) "year" = ahas d "year") :=
  ⟨fun _ => rfl, fun _ => rfl, fun _ => rfl, rfl, fun _ => rfl, fun _ => rfl,
   fun _ => rfl⟩

/-- C3: `upload_entry` on a record whose `image` field contains the
`"ibb.co"` marker returns the record unchanged, reports no change, and never
enters the upload attempt, in every environment. -/
theorem upload_entry_skips_marked (env : UploadEnv) (dh p : String)
    (d : List (String × YVal)) (s : String)
    (himg : aget d "image" = some (.yStr s)) (hmark : strIn "ibb.co" s = true) :
    upload_entry env dh p (.yDict d) = (.yDict d, false, false) := by
  have hibb : hasIbbImage d = true := by
    simp [hasIbbImage, himg, hmark]
  cases hk : env.ibbKeyFalsy with
  | true => simp [upload_entry, hk]
  | false =>
    simp [upload_entry, hk, unify_details, hibb]

theorem upload_entry_skips_marked_witness :
    upload_entry ⟨false, fun _ => true, fun _ => some "u"⟩ "Vitra" "Chair"
      (.yDict [("year", .yInt 1956), ("image", .yStr "https://i.ibb.co/x.png")]) =
      (.yDict [("year", .yInt 1956), ("image", .yStr "https://i.ibb.co/x.png")],
        false, false) :=
  upload_entry_skips_marked _ "Vitra" "Chair" _ "https://i.ibb.co/x.png" rfl rfl

/-- C4: a failing upload task is absorbed inside the task: when the processed
PNG is absent the record (unified) is returned unchanged with no change and
no upload attempt; when the upload raises, the record is returned unchanged
with no change recorded; and the per-house fan-out handles entries
independently, so one entry's failure never affects sibling results. -/
theorem upload_entry_failure_noop (env : UploadEnv) (dh p : String) (v : YVal)
    (hk : env.ibbKeyFalsy = false) :
    (env.pngExists (pngPathFor dh p (unify_details v)) = false →
      hasIbbImage (unify_details v) = false →
      upload_entry env dh p v = (.yDict (unify_details v), false, false)) ∧
    (env.uploadResult (pngPathFor dh p (unify_details v)) = none →
      hasIbbImage (unify_details v) = false →
      upload_entry env dh p v = (.yDict (unify_details v), false,
        env.pngExists (pngPathFor dh p (unify_details v)))) ∧
    (∀ ps₁ ps₂ : List (String × YVal), (processProducts env dh (ps₁ ++ ps₂)).1 =
      (processProducts env dh ps₁).1 ++ (processProducts env dh ps₂).1) := by
  refine ⟨?_, ?_, ?_⟩
  · intro hpng hibb
    simp [upload_entry, hk, hibb, hpng]
  · intro hup hibb
    cases hpng : env.pngExists (pngPathFor dh p (unify_details v)) with
    | false => simp [upload_entry, hk, hibb, hpng, hup]
    | true => simp [upload_entry, hk, hibb, hpng, hup]
  · intro ps₁ ps₂
    simp [processProducts]

theorem upload_entry_failure_noop_witness :
    upload_entry ⟨false, fun _ => false, fun _ => none⟩ "Vitra" "Chair"
      (.yInt 1956) = (.yDict [("year", .yInt 1956)], false, false) :=
  (upload_entry_failure_noop ⟨false, fun _ => false, fun _ => none⟩ "Vitra" "Chair"
    (.yInt 1956) rfl).1 rfl rfl

/-- C5 counterexample: not every pipeline HTTP call goes through the shared
retry-mounted session (the stage-2 processed-image download is a bare
`requests.get`), and a shared-session call that always gets a transient
status is attempted 4 times (3 retries), not 3. -/
theorem retry_claim_false :
    pipelineHttpCalls.all (fun c => c.viaRetrySession) = false ∧
    (runWithRetry retryTotal [503, 503, 503, 503, 503]).1 = 4 := ⟨rfl, rfl⟩

/-- C5 (amended): only the shared-session calls (the stage-1 image download
and the stage-3 upload) carry the retry policy; with the configured
`total=3`, a call that only ever sees forcelist statuses is attempted exactly
4 times (1 + 3 retries) and then surfaces as an error, while a call whose
first status is not in the forcelist completes in a single attempt. -/
theorem retry_policy_actual :
    ((pipelineHttpCalls.filter (fun c => c.viaRetrySession)).map (fun c => c.stage)
      = ["stage1 image download", "stage3 imgbb upload"]) ∧
    (∀ (s : Nat) (rest : List Nat), s ∈ retryForcelist →
      (∀ x ∈ rest, x ∈ retryForcelist) → 3 ≤ rest.length →
      runWithRetry retryTotal (s :: rest) = (4, .error ())) ∧
    (∀ (s : Nat) (rest : List Nat), s ∉ retryForcelist →
      runWithRetry retryTotal (s :: rest) = (1, .ok s)) := by
  refine ⟨rfl, ?_, ?_⟩
  · intro s rest hs hall hlen
    exact runWithRetry_exhausts 3 (s :: rest)
      (fun x hx => (List.mem_cons.mp hx).elim (fun h => h ▸ hs) (hall x))
      (by simp; omega)
  · intro s rest hs
    simp [runWithRetry, hs, retryTotal]

theorem retry_policy_actual_witness :
    runWithRetry retryTotal [500, 500, 500, 500] = (4, .error ()) ∧
    runWithRetry retryTotal [404] = (1, .ok 404) :=
  ⟨retry_policy_actual.2.1 500 [500, 500, 500] (by decide) (by decide) (by decide),
   retry_policy_actual.2.2 404 [] (by decide)⟩

/-- C6 counterexample: with `IBB_API_KEY` falsy the upload stage is not
aborted at startup — on one source fragment it still writes two output files
(the processed fragment and the datatable), and its task still executes,
returning the record unchanged. -/
theorem stage3_missing_key_still_writes :
    ((stage3 ⟨true, true, fun _ => none, fun _ => false, fun _ => false,
        fun _ => false, fun _ => none⟩
      ⟨[], [], [("vitra.yaml", [("Vitra", YVal.yDict [("Chair", YVal.yInt 1956)])])],
        []⟩).1.outYamls.length = 2) ∧
    upload_entry ⟨true, fun _ => false, fun _ => none⟩ "Vitra" "Chair"
      (YVal.yInt 1956) = (YVal.yInt 1956, false, false) := ⟨rfl, rfl⟩

/-- C6 (amended): only stage 2 checks its credential at startup (a missing
`REPLICATE_API_TOKEN` raises before any task); stage 3 checks `IBB_API_KEY`
inside each task: with the key falsy every task still runs and returns its
record unchanged with no change and no upload attempt, and the stage still
writes its output files (in particular `datatable.yaml`). -/
theorem credential_handling_actual :
    (stage2_startup false =
      .error "REPLICATE_API_TOKEN environment variable not set") ∧
    (∀ env : UploadEnv, env.ibbKeyFalsy = true → ∀ (dh p : String) (v : YVal),
      upload_entry env dh p v = (v, false, false)) ∧
    (∀ (env : Env) (fs : FS),
      ahas (stage3 env fs).1.outYamls "datatable.yaml" = true) := by
  refine ⟨rfl, ?_, ?_⟩
  · intro env hk dh p v
    simp [upload_entry, hk]
  · intro env fs
    simp only [stage3]
    simp [ahas, aget_aset_self]

theorem credential_handling_actual_witness :
    upload_entry ⟨true, fun _ => true, fun _ => some "u"⟩ "A" "B" (YVal.yInt 1) =
      (YVal.yInt 1, false, false) :=
  credential_handling_actual.2.1 ⟨true, fun _ => true, fun _ => some "u"⟩ rfl "A" "B"
    (YVal.yInt 1)

/-- C7 counterexample: stage-1 `load_products` applies no repair — a
`"__"`-prefixed fragment key survives as a top-level design-house key of the
loaded catalog. -/
theorem load_products_keeps_marker_keys :
    ahas (load_products [.ok [("__Chair_One", YVal.yInt 1999)]]) "__Chair_One"
      = true ∧
    startsW "__Chair_One" "__" = true := ⟨rfl, rfl⟩

/-- C7 (amended): the stage-1 catalog load merges fragments raw, without the
malformed-structure repair, so `"__"`-prefixed keys survive there; the repair
runs only in stage 3 (`fix_yaml_structure` inside `process_yaml_file`), whose
result never has a `"__"`-prefixed top-level key. -/
theorem repair_location_actual :
    load_products [.ok [("__Chair_One", YVal.yInt 1999)]] = [("__Chair_One", [])] ∧
    (∀ (content : List (String × YVal)) (k : String),
      k ∈ akeys (fix_yaml_structure content) → startsW k "__" = false) := by
  refine ⟨rfl, ?_⟩
  intro content k hk
  exact fixfold_keys content [] none (by intro k hk; simp [akeys] at hk)
    (by intro dh h; cases h) k hk

theorem repair_location_actual_witness :
    startsW "Jasper Morrison" "__" = false :=
  repair_location_actual.2
    [("Jasper Morrison", YVal.yNull), ("__Chair_One", YVal.yInt 1999)]
    "Jasper Morrison" (by decide)

/-- Scanning further prefixed keys once a design house is current attaches
each of them (cleaned) into that house's product map. -/
theorem fixfold_attach (entries : List (String × YVal)) :
    ∀ (acc : List (String × YVal)) (house : String) (m : List (String × YVal)),
      (∀ kv ∈ entries, startsW kv.1 "__" = true) →
      List.foldl fixStep (aset acc house (.yDict m), some house) entries =
        (aset acc house (.yDict (attachAll m entries)), some house) := by
  induction entries with
  | nil => intro acc house m _; rfl
  | cons kv entries ih =>
    intro acc house m hall
    have hpre : startsW kv.1 "__" = true := hall kv (List.mem_cons_self kv entries)
    have hstep : fixStep (aset acc house (.yDict m), some house) kv =
        (aset acc house (.yDict (aset m (cleanProductName kv.1) kv.2)), some house) := by
      simp [fixStep, hpre, dictInsertAt, aget_aset_self, aset_aset_self]
    rw [List.foldl_cons, hstep,
      ih _ _ _ (fun x hx => hall x (List.mem_cons_of_mem _ hx))]
    rfl

theorem aget_dictInsertAt_ne (dt : List (String × YVal)) (k key : String) (v : YVal)
    (dh : String) (h : dh ≠ k) :
    aget (dictInsertAt dt k key v) dh = aget dt dh := by
  unfold dictInsertAt
  split
  · exact aget_aset_ne _ _ _ _ h
  · rfl

/-- Once the current design house differs from `house` and `house` is never
re-established, the rest of the scan leaves the entry at `house` untouched:
prefixed keys attach to the (different) current house and non-prefixed keys
re-seed other houses. -/
theorem fixfold_other_house (post : List (String × YVal)) :
    ∀ (acc : List (String × YVal)) (c house : String), c ≠ house →
      (∀ kv ∈ post, startsW kv.1 "__" = false → kv.1 ≠ house) →
      aget (post.foldl fixStep (acc, some c)).1 house = aget acc house := by
  induction post with
  | nil => intro acc c house _ _; rfl
  | cons kv post ih =>
    intro acc c house hc hpost
    cases hpre : startsW kv.1 "__" with
    | true =>
      have hstep : fixStep (acc, some c) kv =
          (dictInsertAt acc c (cleanProductName kv.1) kv.2, some c) := by
        simp [fixStep, hpre]
      rw [List.foldl_cons, hstep,
        ih _ _ _ hc (fun x hx h => hpost x (List.mem_cons_of_mem _ hx) h),
        aget_dictInsertAt_ne _ _ _ _ _ (Ne.symm hc)]
    | false =>
      have hk : kv.1 ≠ house := hpost kv (List.mem_cons_self kv post) hpre
      have hstep : fixStep (acc, some c) kv =
          (aset acc kv.1 (.yDict (dictEntriesOf kv.2)), some kv.1) := by
        simp [fixStep, hpre]
      rw [List.foldl_cons, hstep,
        ih _ _ _ hk (fun x hx h => hpost x (List.mem_cons_of_mem _ hx) h),
        aget_aset_ne _ _ _ _ (Ne.symm hk)]

/-- Scanning the keys that follow a completed block — nothing, or a new
design house followed by arbitrary further keys none of which re-establish
`house` — preserves the entry at `house`. -/
theorem fixfold_post (post : List (String × YVal)) (acc : List (String × YVal))
    (house : String)
    (hpost0 : post = [] ∨
      ∃ k v post', post = (k, v) :: post' ∧ startsW k "__" = false)
    (hpost : ∀ kv ∈ post, startsW kv.1 "__" = false → kv.1 ≠ house) :
    aget (post.foldl fixStep (acc, some house)).1 house = aget acc house := by
  rcases hpost0 with h | ⟨k, v, post', hp, hk0⟩
  · subst h
    rfl
  · subst hp
    have hk : k ≠ house := hpost (k, v) (List.mem_cons_self _ _) hk0
    have hstep : fixStep (acc, some house) (k, v) =
        (aset acc k (.yDict (dictEntriesOf v)), some k) := by
      simp [fixStep, hk0]
    rw [List.foldl_cons, hstep,
      fixfold_other_house post' _ _ _ hk
        (fun x hx h => hpost x (List.mem_cons_of_mem _ hx) h),
      aget_aset_ne _ _ _ _ (Ne.symm hk)]

/-- C2: the repair scan makes each non-prefixed key the current design house
seeded with its value's product map (empty when the value is not a map) and
attaches each `"__"`-prefixed key — prefix stripped, underscores to spaces —
to the current house, in fragments with arbitrarily many design houses
(arbitrary keys before the block, arbitrary keys after it): the final entry
at each house is exactly its seeded map plus its own prefixed keys; prefixed
keys before any house go to `"unknown"`; and the Jasper Morrison fragment
repairs to the expected catalog. -/
theorem fix_yaml_structure_spec :
    (∀ (pre : List (String × YVal)) (house : String) (hv : YVal)
       (entries post : List (String × YVal)),
      startsW house "__" = false →
      (∀ kv ∈ entries, startsW kv.1 "__" = true) →
      (post = [] ∨
        ∃ k v post', post = (k, v) :: post' ∧ startsW k "__" = false) →
      (∀ kv ∈ post, startsW kv.1 "__" = false → kv.1 ≠ house) →
      aget (fix_yaml_structure (pre ++ (house, hv) :: entries ++ post)) house =
        some (.yDict (attachAll (dictEntriesOf hv) entries))) ∧
    (∀ (kv0 : String × YVal) (entries rest : List (String × YVal)),
      startsW kv0.1 "__" = true →
      (∀ kv ∈ entries, startsW kv.1 "__" = true) →
      (rest = [] ∨
        ∃ k v rest', rest = (k, v) :: rest' ∧ startsW k "__" = false) →
      (∀ kv ∈ rest, startsW kv.1 "__" = false → kv.1 ≠ "unknown") →
      aget (fix_yaml_structure (kv0 :: entries ++ rest)) "unknown" =
        some (.yDict (attachAll [] (kv0 :: entries)))) ∧
    (∀ (house : String) (hv : YVal) (entries : List (String × YVal)),
      startsW house "__" = false →
      (∀ kv ∈ entries, startsW kv.1 "__" = true) →
      fix_yaml_structure ((house, hv) :: entries) =
        [(house, .yDict (attachAll (dictEntriesOf hv) entries))]) ∧
    (∀ (kv0 : String × YVal) (entries : List (String × YVal)),
      startsW kv0.1 "__" = true →
      (∀ kv ∈ entries, startsW kv.1 "__" = true) →
      fix_yaml_structure (kv0 :: entries) =
        [("unknown", .yDict (attachAll [] (kv0 :: entries)))]) ∧
    fix_yaml_structure [("Jasper Morrison", .yNull), ("__Chair_One", .yInt 1999),
        ("__Glo_Ball", .yInt 2005)] =
      [("Jasper Morrison",
        .yDict [("Chair One", .yInt 1999), ("Glo Ball", .yInt 2005)])] := by
  refine ⟨?_, ?_, ?_, ?_, rfl⟩
  · intro pre house hv entries post hh hall hpost0 hpost
    unfold fix_yaml_structure
    have hstep : fixStep (pre.foldl fixStep ([], none)) (house, hv) =
        (aset (pre.foldl fixStep ([], none)).1 house (.yDict (dictEntriesOf hv)),
          some house) := by
      simp [fixStep, hh]
    rw [List.foldl_append, List.foldl_append, List.foldl_cons, hstep,
      fixfold_attach entries _ house _ hall,
      fixfold_post post _ house hpost0 hpost, aget_aset_self]
  · intro kv0 entries rest h0 hall hpost0 hpost
    unfold fix_yaml_structure
    have hstep : fixStep ([], none) kv0 =
        (aset [] "unknown" (.yDict (aset [] (cleanProductName kv0.1) kv0.2)),
          some "unknown") := by
      simp [fixStep, h0, ahas, aget, aset, dictInsertAt]
    rw [List.foldl_append, List.foldl_cons, hstep,
      fixfold_attach entries _ "unknown" _ hall,
      fixfold_post rest _ "unknown" hpost0 hpost, aget_aset_self]
    rfl
  · intro house hv entries hh hall
    have hstep : fixStep ([], none) (house, hv) =
        (aset [] house (.yDict (dictEntriesOf hv)), some house) := by
      simp [fixStep, hh]
    unfold fix_yaml_structure
    rw [List.foldl_cons, hstep, fixfold_attach entries [] house _ hall]
    rfl
  · intro kv0 entries hh hall
    have hstep : fixStep ([], none) kv0 =
        (aset [] "unknown" (.yDict (aset [] (cleanProductName kv0.1) kv0.2)),
          some "unknown") := by
      simp [fixStep, hh, ahas, aget, aset, dictInsertAt]
    unfold fix_yaml_structure
    rw [List.foldl_cons, hstep, fixfold_attach entries [] "unknown" _ hall]
    rfl

theorem fix_yaml_structure_spec_witness :
    aget (fix_yaml_structure [("Flos", YVal.yNull), ("__Arco", YVal.yInt 1962),
        ("Vitra", YVal.yNull), ("__Panton_Chair", YVal.yInt 1960)]) "Flos" =
      some (.yDict [("Arco", YVal.yInt 1962)]) ∧
    aget (fix_yaml_structure [("Flos", YVal.yNull), ("__Arco", YVal.yInt 1962),
        ("Vitra", YVal.yNull), ("__Panton_Chair", YVal.yInt 1960)]) "Vitra" =
      some (.yDict [("Panton Chair", YVal.yInt 1960)]) :=
  ⟨fix_yaml_structure_spec.1 [] "Flos" YVal.yNull [("__Arco", YVal.yInt 1962)]
      [("Vitra", YVal.yNull), ("__Panton_Chair", YVal.yInt 1960)] rfl (by decide)
      (Or.inr ⟨"Vitra", YVal.yNull, [("__Panton_Chair", YVal.yInt 1960)], rfl, rfl⟩)
      (by decide),
   fix_yaml_structure_spec.1 [("Flos", YVal.yNull), ("__Arco", YVal.yInt 1962)]
      "Vitra" YVal.yNull [("__Panton_Chair", YVal.yInt 1960)] [] rfl (by decide)
      (Or.inl rfl) (by decide)⟩

/-! ### Datatable merge lemmas -/

theorem aget_mem {α : Type} (d : List (String × α)) (k : String) (v : α)
    (h : aget d k = some v) : (k, v) ∈ d := by
  induction d with
  | nil => simp [aget] at h
  | cons kv d ih =>
    obtain ⟨k0, w⟩ := kv
    by_cases h0 : k0 = k
    · subst h0
      simp [aget] at h
      subst h
      exact List.mem_cons_self _ _
    · simp only [aget, if_neg h0] at h
      exact List.mem_cons_of_mem _ (ih h)

theorem mem_aset {α : Type} (dt : List (String × α)) (k : String) (v : α) :
    ∀ x ∈ aset dt k v, x ∈ dt ∨ x = (k, v) := by
  induction dt with
  | nil =>
    intro x hx
    simp [aset] at hx
    exact Or.inr hx
  | cons kv dt ih =>
    intro x hx
    obtain ⟨k0, w⟩ := kv
    by_cases h0 : k0 = k
    · subst h0
      simp only [aset, if_pos rfl] at hx
      rcases List.mem_cons.mp hx with h | h
      · exact Or.inr h
      · exact Or.inl (List.mem_cons_of_mem _ h)
    · simp only [aset, if_neg h0] at hx
      rcases List.mem_cons.mp hx with h | h
      · exact Or.inl (h ▸ List.mem_cons_self _ _)
      · rcases ih x h with h | h
        · exact Or.inl (List.mem_cons_of_mem _ h)
        · exact Or.inr h

/-- All values of a datatable accumulator are dicts. -/
def DictVals (dt : List (String × YVal)) : Prop :=
  ∀ kv ∈ dt, ∃ d, kv.2 = YVal.yDict d

theorem dictVals_aset (dt : List (String × YVal)) (k : String)
    (m : List (String × YVal)) (h : DictVals dt) :
    DictVals (aset dt k (.yDict m)) := by
  intro x hx
  rcases mem_aset _ _ _ x hx with hm | hm
  · exact h x hm
  · exact ⟨m, by rw [hm]⟩

theorem dictVals_dictInsertAt (dt : List (String × YVal)) (k key : String) (v : YVal)
    (h : DictVals dt) : DictVals (dictInsertAt dt k key v) := by
  unfold dictInsertAt
  split
  · exact dictVals_aset _ _ _ h
  · exact h

theorem dictVals_mergeProducts (ps : List (String × YVal)) :
    ∀ (dt : List (String × YVal)) (k : String), DictVals dt →
      DictVals (ps.foldl (fun dt pv => dictInsertAt dt k pv.1 pv.2) dt) := by
  induction ps with
  | nil => intro dt k h; exact h
  | cons pv ps ih =>
    intro dt k h
    rw [List.foldl_cons]
    exact ih _ _ (dictVals_dictInsertAt _ _ _ _ h)

theorem dictVals_mergeHouse (dt : List (String × YVal)) (e : String × YVal)
    (h : DictVals dt) : DictVals (mergeHouse dt e) := by
  unfold mergeHouse
  split
  · split
    · exact dictVals_mergeProducts _ _ _ h
    · exact dictVals_mergeProducts _ _ _ (dictVals_aset _ _ _ h)
  · exact h

theorem dictVals_mergeFragInto (f : List (String × YVal)) :
    ∀ dt : List (String × YVal), DictVals dt → DictVals (mergeFragInto dt f) := by
  induction f with
  | nil => intro dt h; exact h
  | cons e f ih =>
    intro dt h
    exact ih _ (dictVals_mergeHouse _ _ h)

theorem dictVals_create_datatable (frags : List (List (String × YVal))) :
    DictVals (create_datatable frags) := by
  have hgen : ∀ dt : List (String × YVal), DictVals dt →
      DictVals (frags.foldl mergeFragInto dt) := by
    induction frags with
    | nil => intro dt h; exact h
    | cons f frags ih =>
      intro dt h
      exact ih _ (dictVals_mergeFragInto f dt h)
  exact hgen [] (by intro kv hkv; simp at hkv)

theorem aget_mergeProducts_ne (ps : List (String × YVal)) :
    ∀ (dt : List (String × YVal)) (k dh : String), dh ≠ k →
      aget (ps.foldl (fun dt pv => dictInsertAt dt k pv.1 pv.2) dt) dh = aget dt dh := by
  induction ps with
  | nil => intro dt k dh _; rfl
  | cons pv ps ih =>
    intro dt k dh h
    rw [List.foldl_cons, ih _ _ _ h, aget_dictInsertAt_ne _ _ _ _ _ h]

theorem aget_mergeHouse_ne (dt : List (String × YVal)) (e : String × YVal)
    (dh : String) (h : dh ≠ e.1) : aget (mergeHouse dt e) dh = aget dt dh := by
  unfold mergeHouse
  split
  · split
    · exact aget_mergeProducts_ne _ _ _ _ h
    · rw [aget_mergeProducts_ne _ _ _ _ h, aget_aset_ne _ _ _ _ h]
  · rfl

theorem aget_mergeFragInto_not_mem (f : List (String × YVal)) :
    ∀ (dt : List (String × YVal)) (dh : String), dh ∉ akeys f →
      aget (mergeFragInto dt f) dh = aget dt dh := by
  induction f with
  | nil => intro dt dh _; rfl
  | cons e f ih =>
    intro dt dh h
    simp only [akeys, List.map_cons, List.mem_cons, not_or] at h
    have : mergeFragInto dt (e :: f) = mergeFragInto (mergeHouse dt e) f := rfl
    rw [this, ih _ _ (by simpa [akeys] using h.2), aget_mergeHouse_ne _ _ _ h.1]

theorem mergeProducts_get (ps : List (String × YVal)) :
    ∀ (dt : List (String × YVal)) (k : String) (d : List (String × YVal)),
      aget dt k = some (.yDict d) →
      aget (ps.foldl (fun dt pv => dictInsertAt dt k pv.1 pv.2) dt) k =
        some (.yDict (aupdate d ps)) := by
  induction ps with
  | nil => intro dt k d h; simpa [aupdate] using h
  | cons pv ps ih =>
    intro dt k d h
    have hstep : dictInsertAt dt k pv.1 pv.2 =
        aset dt k (.yDict (aset d pv.1 pv.2)) := by
      unfold dictInsertAt
      rw [h]
    rw [List.foldl_cons, hstep, aupdate_cons]
    exact ih _ _ _ (aget_aset_self _ _ _)

/-- Folding a fragment whose design house `dh` maps to the product dict `m`
makes the accumulator's entry for `(dh, p)` equal to `m`'s value at `p`,
for any accumulator whose values are dicts. -/
theorem mergeFragInto_get (f : List (String × YVal)) :
    ∀ (dt : List (String × YVal)) (dh : String) (m : List (String × YVal))
      (p : String) (v : YVal),
      DictVals dt → (akeys f).Nodup → (akeys m).Nodup →
      aget f dh = some (.yDict m) → aget m p = some v →
      dtGet (mergeFragInto dt f) dh p = some v := by
  induction f with
  | nil => intro dt dh m p v _ _ _ hf _; simp [aget] at hf
  | cons e f ih =>
    intro dt dh m p v hdv hnf hnm hf hm
    obtain ⟨k, items⟩ := e
    simp only [akeys, List.map_cons, List.nodup_cons] at hnf
    have hstep : mergeFragInto dt ((k, items) :: f) =
        mergeFragInto (mergeHouse dt (k, items)) f := rfl
    by_cases hk : k = dh
    · subst hk
      have hf' : items = .yDict m := by simpa [aget] using hf
      subst hf'
      have hknotf : k ∉ akeys f := by simpa [akeys] using hnf.1
      have hbase : ∃ d0, aget (if ahas dt k then dt
          else aset dt k (.yDict [])) k = some (.yDict d0) := by
        by_cases hh : ahas dt k = true
        · rw [if_pos hh]
          rcases Option.isSome_iff_exists.mp hh with ⟨w, hw⟩
          rcases hdv (k, w) (aget_mem _ _ _ hw) with ⟨d0, hd0⟩
          exact ⟨d0, by rw [hw, show w = YVal.yDict d0 from hd0]⟩
        · rw [if_neg hh]
          exact ⟨[], aget_aset_self _ _ _⟩
      rcases hbase with ⟨d0, hd0⟩
      have hmh : aget (mergeHouse dt (k, .yDict m)) k =
          some (.yDict (aupdate d0 m)) := by
        unfold mergeHouse
        exact mergeProducts_get m _ k d0 hd0
      unfold dtGet
      rw [hstep, aget_mergeFragInto_not_mem f _ _ hknotf, hmh]
      show aget (aupdate d0 m) p = some v
      exact aget_aupdate_of_mem m d0 p v hnm (aget_mem _ _ _ hm)
    · have hf2 : aget f dh = some (.yDict m) := by
        simpa [aget, hk] using hf
      rw [hstep]
      exact ih _ _ _ _ _ (dictVals_mergeHouse _ _ hdv)
        (by simpa [akeys] using hnf.2) hnm hf2 hm

/-- C8: the datatable merge folds fragments with later product-level entries
overwriting earlier ones, skips (without failing) any design house whose
value is not itself a product map, and on the Vitra example yields fragment
B's record. -/
theorem create_datatable_last_write_wins :
    (∀ (pre : List (List (String × YVal))) (f : List (String × YVal))
       (dh : String) (m : List (String × YVal)) (p : String) (v : YVal),
      (akeys f).Nodup → (akeys m).Nodup →
      aget f dh = some (.yDict m) → aget m p = some v →
      dtGet (create_datatable (pre ++ [f])) dh p = some v) ∧
    (∀ (pre : List (List (String × YVal))) (dh : String) (n : Int),
      create_datatable (pre ++ [[(dh, .yInt n)]]) = create_datatable pre) ∧
    dtGet (create_datatable
        [[("Vitra", .yDict [("Eames Chair", .yDict [("year", .yInt 1956)])])],
         [("Vitra", .yDict [("Eames Chair",
            .yDict [("year", .yInt 1956), ("image", .yStr "https://ibb.co/x")])])]])
      "Vitra" "Eames Chair" =
      some (.yDict [("year", .yInt 1956), ("image", .yStr "https://ibb.co/x")]) := by
  refine ⟨?_, ?_, rfl⟩
  · intro pre f dh m p v hnf hnm hf hm
    have happ : create_datatable (pre ++ [f]) =
        mergeFragInto (create_datatable pre) f := by
      unfold create_datatable
      rw [List.foldl_append]
      rfl
    rw [happ]
    exact mergeFragInto_get f _ dh m p v (dictVals_create_datatable pre) hnf hnm hf hm
  · intro pre dh n
    unfold create_datatable
    rw [List.foldl_append]
    rfl

theorem create_datatable_last_write_wins_witness :
    dtGet (create_datatable ([[("A", .yDict [("p", .yInt 1)])]] ++
      [[("A", .yDict [("p", .yInt 2)])]])) "A" "p" = some (.yInt 2) :=
  create_datatable_last_write_wins.1 [[("A", .yDict [("p", .yInt 1)])]]
    [("A", .yDict [("p", .yInt 2)])] "A" [("p", .yInt 2)] "p" (.yInt 2)
    (by decide) (by decide) rfl rfl

/-! ### Slug characterization lemmas -/

theorem isAln_ne_dash (c : Char) (h : isAln c = true) : (c == '-') = false := by
  cases hb : c == '-' with
  | false => rfl
  | true =>
    have hc : c = '-' := eq_of_beq hb
    rw [hc] at h
    exact absurd h (by decide)

theorem stripEnd_cons_ne_dash (c : Char) (X : List Char) (hc : (c == '-') = false) :
    stripEnd (c :: X) = c :: stripEnd X := by
  cases h : stripEnd X with
  | nil => simp [stripEnd, h, hc]
  | cons r rs => simp [stripEnd, h]

theorem stripEnd_cons_of_ne_nil (c : Char) (X : List Char) (h : stripEnd X ≠ []) :
    stripEnd (c :: X) = c :: stripEnd X := by
  cases hx : stripEnd X with
  | nil => exact absurd hx h
  | cons r rs => simp [stripEnd, hx]

/-- The output of the substitution in the already-inside-a-run state starts
with an alphanumeric character, so stripping leading dashes from the
fresh-state output lands exactly on the inside-a-run output. -/
theorem dropDash_subRunsGo (l : List Char) :
    (subRunsGo true l).dropWhile (· == '-') = subRunsGo true l ∧
    (subRunsGo false l).dropWhile (· == '-') = subRunsGo true l := by
  induction l with
  | nil => exact ⟨rfl, rfl⟩
  | cons c cs ih =>
    cases ha : isAln c with
    | true =>
      have hc := isAln_ne_dash c ha
      constructor
      · simp [subRunsGo, ha, List.dropWhile, hc]
      · simp [subRunsGo, ha, List.dropWhile, hc]
    | false =>
      constructor
      · simpa [subRunsGo, ha] using ih.1
      · simp only [subRunsGo, ha, Bool.false_eq_true, if_false, if_true]
        rw [show (('-' :: subRunsGo true cs).dropWhile (· == '-')) =
          ((subRunsGo true cs).dropWhile (· == '-')) from by simp [List.dropWhile]]
        exact ih.1

theorem tokensGo_ne_nil (l : List Char) :
    ∀ cur : List Char, ∀ t ∈ tokensGo cur l, t ≠ [] := by
  induction l with
  | nil =>
    intro cur t ht
    by_cases h : cur = []
    · simp [tokensGo, h] at ht
    · simp only [tokensGo, if_neg h, List.mem_singleton] at ht
      rw [ht]
      simpa using h
  | cons c cs ih =>
    intro cur t ht
    cases ha : isAln c with
    | true =>
      rw [show tokensGo cur (c :: cs) = tokensGo (c :: cur) cs from by
        simp [tokensGo, ha]] at ht
      exact ih (c :: cur) t ht
    | false =>
      by_cases h : cur = []
      · rw [show tokensGo cur (c :: cs) = tokensGo [] cs from by
          simp [tokensGo, ha, h]] at ht
        exact ih [] t ht
      · rw [show tokensGo cur (c :: cs) = cur.reverse :: tokensGo [] cs from by
          simp [tokensGo, ha, h]] at ht
        rcases List.mem_cons.mp ht with h1 | h1
        · rw [h1]
          simpa using h
        · exact ih [] t h1

theorem joinDash_ne_nil (ts : List (List Char)) (h : ∀ t ∈ ts, t ≠ [])
    (hne : ts ≠ []) : joinDash ts ≠ [] := by
  match ts, hne with
  | [t], _ => exact h t (List.mem_cons_self t [])
  | t :: t2 :: rest, _ =>
    show t ++ '-' :: joinDash (t2 :: rest) ≠ []
    simp

/-- The tokenizer against the substitution state machine: in the
inside-a-run state the dash-joined tokens equal the end-stripped output, and
in the fresh state with a pending token accumulated they equal the reversed
pending token prepended. -/
theorem tokensGo_subRunsGo (l : List Char) :
    joinDash (tokensGo [] l) = stripEnd (subRunsGo true l) ∧
    (∀ cur : List Char, cur ≠ [] →
      joinDash (tokensGo cur l) = cur.reverse ++ stripEnd (subRunsGo false l)) := by
  induction l with
  | nil =>
    constructor
    · rfl
    · intro cur h
      simp [tokensGo, h, joinDash, subRunsGo, stripEnd]
  | cons c cs ih =>
    cases ha : isAln c with
    | true =>
      have hc := isAln_ne_dash c ha
      constructor
      · rw [show tokensGo [] (c :: cs) = tokensGo [c] cs from by simp [tokensGo, ha]]
        rw [ih.2 [c] (by simp)]
        rw [show subRunsGo true (c :: cs) = c :: subRunsGo false cs from by
          simp [subRunsGo, ha]]
        rw [stripEnd_cons_ne_dash c _ hc]
        rfl
      · intro cur h
        rw [show tokensGo cur (c :: cs) = tokensGo (c :: cur) cs from by
          simp [tokensGo, ha]]
        rw [ih.2 (c :: cur) (by simp)]
        rw [show subRunsGo false (c :: cs) = c :: subRunsGo false cs from by
          simp [subRunsGo, ha]]
        rw [stripEnd_cons_ne_dash c _ hc]
        simp

    | false =>
      constructor
      · rw [show tokensGo [] (c :: cs) = tokensGo [] cs from by simp [tokensGo, ha]]
        rw [show subRunsGo true (c :: cs) = subRunsGo true cs from by
          simp [subRunsGo, ha]]
        exact ih.1
      · intro cur h
        rw [show tokensGo cur (c :: cs) = cur.reverse :: tokensGo [] cs from by
          simp [tokensGo, ha, h]]
        rw [show subRunsGo false (c :: cs) = '-' :: subRunsGo true cs from by
          simp [subRunsGo, ha]]
        cases hts : tokensGo [] cs with
        | nil =>
          have hY : stripEnd (subRunsGo true cs) = [] := by
            rw [← ih.1, hts]
            rfl
          rw [show stripEnd ('-' :: subRunsGo true cs) = [] from by
            simp [stripEnd, hY]]
          simp [joinDash]
        | cons t ts =>
          have hY : stripEnd (subRunsGo true cs) = joinDash (t :: ts) := by
            rw [← ih.1, hts]
          have hne : joinDash (t :: ts) ≠ [] :=
            joinDash_ne_nil (t :: ts)
              (fun x hx => tokensGo_ne_nil cs [] x (hts ▸ hx)) (by simp)
          have hsne : stripEnd (subRunsGo true cs) ≠ [] := by
            rw [hY]
            exact hne
          rw [stripEnd_cons_of_ne_nil '-' _ hsne, hY]
          rfl

/-- The list-level pipeline of `sanitize_name` equals the dash-join of the
maximal alphanumeric runs. -/
theorem sanitize_eq_joinDash (l : List Char) :
    stripD (subRuns l) = joinDash (alnumTokens l) := by
  show stripEnd ((subRunsGo false l).dropWhile (· == '-')) = joinDash (tokensGo [] l)
  rw [(dropDash_subRunsGo l).2]
  exact ((tokensGo_subRunsGo l).1).symm

/-- C9: `sanitize_name` lowercases, collapses each maximal non-alphanumeric
run to one dash and strips outer dashes — equivalently it is the dash-join of
the lowered alphanumeric tokens — hence it is invariant under case changes
and under the choice of non-alphanumeric separators, and maps
"Jean-Paul Gaultier!!" to "jean-paul-gaultier". -/
theorem sanitize_name_spec :
    (∀ s : String, sanitize_name s = String.mk (joinDash (slugTokens s))) ∧
    (∀ s1 s2 : String, s1.toList.map Char.toLower = s2.toList.map Char.toLower →
      sanitize_name s1 = sanitize_name s2) ∧
    (∀ s1 s2 : String, slugTokens s1 = slugTokens s2 →
      sanitize_name s1 = sanitize_name s2) ∧
    sanitize_name "Jean-Paul Gaultier!!" = "jean-paul-gaultier" := by
  have hchar : ∀ s : String, sanitize_name s = String.mk (joinDash (slugTokens s)) := by
    intro s
    unfold sanitize_name slugTokens
    rw [sanitize_eq_joinDash]
  refine ⟨hchar, ?_, ?_, by decide⟩
  · intro s1 s2 h
    unfold sanitize_name
    rw [h]
  · intro s1 s2 h
    rw [hchar s1, hchar s2, h]

theorem sanitize_name_spec_witness :
    sanitize_name "Jean Paul" = sanitize_name "JEAN.paul" :=
  sanitize_name_spec.2.2.1 "Jean Paul" "JEAN.paul" (by decide)

/-! ### Datatable absorption and update lemmas (for re-run behaviour) -/

theorem not_mem_akeys_of_aget_none {α : Type} (d : List (String × α)) (k : String)
    (h : aget d k = none) : k ∉ akeys d := by
  intro hk
  have hm := (ahas_iff_mem_akeys d k).mpr hk
  rw [ahas, h] at hm
  simp at hm

theorem not_mem_akeys_aupdate {α : Type} (d m : List (String × α)) (k : String)
    (h1 : k ∉ akeys d) (h2 : k ∉ akeys m) : k ∉ akeys (aupdate d m) := by
  apply not_mem_akeys_of_aget_none
  rw [aget_aupdate_of_not_mem m d k h2]
  exact aget_eq_none_of_not_mem d k h1

/-- Re-setting every entry of `m` into a map that already holds exactly those
values is the identity. -/
theorem aupdate_eq_self {α : Type} (m : List (String × α)) :
    ∀ d : List (String × α), (∀ kv ∈ m, aget d kv.1 = some kv.2) → aupdate d m = d := by
  induction m with
  | nil => intro d _; rfl
  | cons kv m ih =>
    intro d h
    rw [aupdate_cons, aset_eq_of_aget d kv.1 kv.2 (h kv (List.mem_cons_self kv m))]
    exact ih d (fun x hx => h x (List.mem_cons_of_mem _ hx))

theorem aset_append_of_not_mem {α : Type} (d : List (String × α)) (k : String)
    (v : α) (h : k ∉ akeys d) : aset d k v = d ++ [(k, v)] := by
  induction d with
  | nil => rfl
  | cons kv d ih =>
    simp only [akeys, List.map_cons, List.mem_cons, not_or] at h
    have h1 : ¬ kv.1 = k := fun hh => h.1 hh.symm
    obtain ⟨k0, w⟩ := kv
    simp only [aset, if_neg h1]
    rw [List.cons_append, ih (by simpa [akeys] using h.2)]

/-- The well-formedness of a datatable accumulator: no duplicate design-house
keys, and every value is a product dict without duplicate product keys. -/
def NodupTable (dt : List (String × YVal)) : Prop :=
  (akeys dt).Nodup ∧ ∀ kv ∈ dt, ∃ ps, kv.2 = YVal.yDict ps ∧ (akeys ps).Nodup

theorem nodupTable_aset (dt : List (String × YVal)) (k : String)
    (ps : List (String × YVal)) (hps : (akeys ps).Nodup) (h : NodupTable dt) :
    NodupTable (aset dt k (.yDict ps)) := by
  refine ⟨nodup_akeys_aset _ _ _ h.1, ?_⟩
  intro kv hkv
  rcases mem_aset _ _ _ kv hkv with hm | hm
  · exact h.2 kv hm
  · exact ⟨ps, by rw [hm], hps⟩

theorem nodupTable_dictInsertAt (dt : List (String × YVal)) (k p : String) (v : YVal)
    (h : NodupTable dt) : NodupTable (dictInsertAt dt k p v) := by
  unfold dictInsertAt
  cases hget : aget dt k with
  | none => exact h
  | some w =>
    cases w with
    | yDict m =>
      rcases h.2 (k, YVal.yDict m) (aget_mem _ _ _ hget) with ⟨ps, hps, hnps⟩
      have hps2 : YVal.yDict m = YVal.yDict ps := hps
      have hm : m = ps := by injection hps2
      subst hm
      exact nodupTable_aset _ _ _ (nodup_akeys_aset _ _ _ hnps) h
    | yInt n => exact h
    | yStr s => exact h
    | yBool b => exact h
    | yNull => exact h
    | yList xs => exact h

theorem nodupTable_mergeProducts (qs : List (String × YVal)) :
    ∀ (dt : List (String × YVal)) (k : String), NodupTable dt →
      NodupTable (qs.foldl (fun dt pv => dictInsertAt dt k pv.1 pv.2) dt) := by
  induction qs with
  | nil => intro dt k h; exact h
  | cons pv qs ih =>
    intro dt k h
    rw [List.foldl_cons]
    exact ih _ _ (nodupTable_dictInsertAt _ _ _ _ h)

theorem nodupTable_mergeHouse (dt : List (String × YVal)) (e : String × YVal)
    (h : NodupTable dt) : NodupTable (mergeHouse dt e) := by
  unfold mergeHouse
  split
  · split
    · exact nodupTable_mergeProducts _ _ _ h
    · exact nodupTable_mergeProducts _ _ _ (nodupTable_aset _ _ _ (by simp [akeys]) h)
  · exact h

theorem nodupTable_mergeFragInto (f : List (String × YVal)) :
    ∀ dt : List (String × YVal), NodupTable dt → NodupTable (mergeFragInto dt f) := by
  induction f with
  | nil => intro dt h; exact h
  | cons e f ih =>
    intro dt h
    exact ih _ (nodupTable_mergeHouse _ _ h)

theorem nodupTable_create_datatable (frags : List (List (String × YVal))) :
    NodupTable (create_datatable frags) := by
  have hgen : ∀ dt : List (String × YVal), NodupTable dt →
      NodupTable (frags.foldl mergeFragInto dt) := by
    induction frags with
    | nil => intro dt h; exact h
    | cons f frags ih =>
      intro dt h
      exact ih _ (nodupTable_mergeFragInto f dt h)
  exact hgen [] ⟨List.nodup_nil, by intro kv hkv; simp at hkv⟩

theorem mergeProducts_self (qs : List (String × YVal)) :
    ∀ (dt : List (String × YVal)) (k : String) (ps : List (String × YVal)),
      aget dt k = some (.yDict ps) → (∀ pw ∈ qs, aget ps pw.1 = some pw.2) →
      qs.foldl (fun dt pv => dictInsertAt dt k pv.1 pv.2) dt = dt := by
  induction qs with
  | nil => intro dt k ps _ _; rfl
  | cons pv qs ih =>
    intro dt k ps hget hq
    have hstep : dictInsertAt dt k pv.1 pv.2 = dt := by
      unfold dictInsertAt
      rw [hget]
      show aset dt k (YVal.yDict (aset ps pv.1 pv.2)) = dt
      rw [aset_eq_of_aget ps pv.1 pv.2 (hq pv (List.mem_cons_self pv qs))]
      exact aset_eq_of_aget dt k _ hget
    rw [List.foldl_cons, hstep]
    exact ih dt k ps hget (fun x hx => hq x (List.mem_cons_of_mem _ hx))

theorem mergeHouse_self (dt : List (String × YVal)) (k : String)
    (ps : List (String × YVal)) (hget : aget dt k = some (.yDict ps))
    (hq : ∀ pw ∈ ps, aget ps pw.1 = some pw.2) :
    mergeHouse dt (k, .yDict ps) = dt := by
  unfold mergeHouse
  have hh : ahas dt k = true := by rw [ahas, hget]; rfl
  rw [if_pos hh]
  exact mergeProducts_self ps dt k ps hget hq

/-- Merging a fragment whose entries are all already present with the same
values changes nothing. -/
theorem mergeFragInto_agree (f : List (String × YVal)) :
    ∀ dt : List (String × YVal),
      (∀ kv ∈ f, ∃ ps, kv.2 = YVal.yDict ps ∧ aget dt kv.1 = some (.yDict ps) ∧
        ∀ pw ∈ ps, aget ps pw.1 = some pw.2) →
      mergeFragInto dt f = dt := by
  induction f with
  | nil => intro dt _; rfl
  | cons e f ih =>
    intro dt h
    rcases h e (List.mem_cons_self e f) with ⟨ps, hv, hget, hq⟩
    have hstep : mergeFragInto dt (e :: f) = mergeFragInto (mergeHouse dt e) f := rfl
    have he : mergeHouse dt e = dt := by
      obtain ⟨k, v⟩ := e
      have hv2 : v = YVal.yDict ps := hv
      subst hv2
      exact mergeHouse_self dt k ps hget hq
    rw [hstep, he]
    exact ih dt (fun x hx => h x (List.mem_cons_of_mem _ hx))

/-- Re-merging an already-merged datatable into itself is the identity. -/
theorem mergeFragInto_self (dt : List (String × YVal)) (h : NodupTable dt) :
    mergeFragInto dt dt = dt := by
  apply mergeFragInto_agree
  intro kv hkv
  rcases h.2 kv hkv with ⟨ps, hv, hnps⟩
  refine ⟨ps, hv, ?_, ?_⟩
  · have := aget_of_mem_nodup dt kv.1 kv.2 h.1 (by simpa using hkv)
    rw [hv] at this
    exact this
  · intro pw hpw
    exact aget_of_mem_nodup ps pw.1 pw.2 hnps (by simpa using hpw)

/-- Appending the merged datatable itself to the fragment list (as happens on
a second run, when `datatable.yaml` sits in the processed directory) does not
change the merge result. -/
theorem create_datatable_absorb (vs : List (List (String × YVal))) :
    create_datatable (vs ++ [create_datatable vs]) = create_datatable vs := by
  unfold create_datatable
  rw [List.foldl_append]
  exact mergeFragInto_self _ (nodupTable_create_datatable vs)

/-! ### Stage idempotence (re-run) lemmas -/

theorem contains_iff_mem (l : List String) (a : String) :
    l.contains a = true ↔ a ∈ l := by simp

/-- A stage-1 task that a further run will not change the filesystem for:
its jpg already exists, or the search finds nothing, or the fetch raises. -/
def stage1Done (env : Env) (jpgs : List String) (t : String × String × YVal) : Prop :=
  jpgs.contains (jpgPath t.1 t.2.1 t.2.2) = true ∨
  env.searchResult (searchQuery t.1 t.2.1) = none ∨
  ∃ url, env.searchResult (searchQuery t.1 t.2.1) = some url ∧
    env.downloadOk url = false

theorem stage1Step_mono (env : Env) (st : List String × Nat)
    (t : String × String × YVal) (x : String) (h : x ∈ st.1) :
    x ∈ (stage1Step env st t).1 := by
  unfold stage1Step
  by_cases hc : st.1.contains (jpgPath t.1 t.2.1 t.2.2) = true
  · rw [if_pos hc]
    exact h
  · rw [if_neg hc]
    cases hsr : env.searchResult (searchQuery t.1 t.2.1) with
    | none => exact h
    | some url =>
      cases hd : env.downloadOk url with
      | true =>
        simp only [hd, if_true]
        exact List.mem_cons_of_mem _ h
      | false =>
        simp only [hd, Bool.false_eq_true, if_false]
        exact h

theorem stage1_fold_mono (env : Env) (tasks : List (String × String × YVal)) :
    ∀ (st : List String × Nat) (x : String), x ∈ st.1 →
      x ∈ (tasks.foldl (stage1Step env) st).1 := by
  induction tasks with
  | nil => intro st x h; exact h
  | cons t tasks ih =>
    intro st x h
    rw [List.foldl_cons]
    exact ih _ x (stage1Step_mono env st t x h)

theorem stage1Done_mono (env : Env) (jpgs jpgs' : List String)
    (hsub : ∀ x ∈ jpgs, x ∈ jpgs') (t : String × String × YVal)
    (h : stage1Done env jpgs t) : stage1Done env jpgs' t := by
  rcases h with h | h | h
  · exact Or.inl ((contains_iff_mem _ _).mpr (hsub _ ((contains_iff_mem _ _).mp h)))
  · exact Or.inr (Or.inl h)
  · exact Or.inr (Or.inr h)

theorem stage1Step_done (env : Env) (st : List String × Nat)
    (t : String × String × YVal) : stage1Done env (stage1Step env st t).1 t := by
  by_cases hc : st.1.contains (jpgPath t.1 t.2.1 t.2.2) = true
  · have hx : (stage1Step env st t).1 = st.1 := by
      unfold stage1Step
      rw [if_pos hc]
    unfold stage1Done
    rw [hx]
    exact Or.inl hc
  · cases hsr : env.searchResult (searchQuery t.1 t.2.1) with
    | none =>
      unfold stage1Done
      exact Or.inr (Or.inl hsr)
    | some url =>
      cases hd : env.downloadOk url with
      | true =>
        have hx : (stage1Step env st t).1 = jpgPath t.1 t.2.1 t.2.2 :: st.1 := by
          unfold stage1Step
          rw [if_neg hc, hsr]
          simp [hd]
        unfold stage1Done
        rw [hx]
        exact Or.inl ((contains_iff_mem _ _).mpr (List.mem_cons_self _ _))
      | false =>
        unfold stage1Done
        exact Or.inr (Or.inr ⟨url, hsr, hd⟩)

theorem stage1_fold_done (env : Env) (tasks : List (String × String × YVal)) :
    ∀ st : List String × Nat, ∀ t ∈ tasks,
      stage1Done env (tasks.foldl (stage1Step env) st).1 t := by
  induction tasks with
  | nil => intro st t ht; simp at ht
  | cons t0 tasks ih =>
    intro st t ht
    rw [List.foldl_cons]
    rcases List.mem_cons.mp ht with h | h
    · subst h
      exact stage1Done_mono env _ _
        (fun x hx => stage1_fold_mono env tasks _ x hx) t
        (stage1Step_done env st t)
    · exact ih _ t h

theorem stage1_fold_stable (env : Env) (tasks : List (String × String × YVal)) :
    ∀ st : List String × Nat, (∀ t ∈ tasks, stage1Done env st.1 t) →
      (tasks.foldl (stage1Step env) st).1 = st.1 := by
  induction tasks with
  | nil => intro st _; rfl
  | cons t tasks ih =>
    intro st h
    have hstep : (stage1Step env st t).1 = st.1 := by
      unfold stage1Step
      rcases h t (List.mem_cons_self t tasks) with hc | hn | ⟨url, hu, hd⟩
      · rw [if_pos hc]
      · by_cases hc : st.1.contains (jpgPath t.1 t.2.1 t.2.2) = true
        · rw [if_pos hc]
        · rw [if_neg hc, hn]
      · by_cases hc : st.1.contains (jpgPath t.1 t.2.1 t.2.2) = true
        · rw [if_pos hc]
        · rw [if_neg hc, hu]
          simp [hd]
    rw [List.foldl_cons, ih (stage1Step env st t) (by
      intro t' ht'
      rw [hstep]
      exact h t' (List.mem_cons_of_mem _ ht')), hstep]

theorem stage1_jpgs_idem (env : Env) (tasks : List (String × String × YVal))
    (j0 : List String) :
    (tasks.foldl (stage1Step env) ((tasks.foldl (stage1Step env) (j0, 0)).1, 0)).1 =
      (tasks.foldl (stage1Step env) (j0, 0)).1 :=
  stage1_fold_stable env tasks _ (fun t ht => stage1_fold_done env tasks (j0, 0) t ht)

/-- A stage-2 item that a further run will not change the filesystem for. -/
def stage2Done (env : Env) (pngs : List String) (j : String) : Prop :=
  pngs.contains (pngOf j) = true ∨ env.replicateOk j = false ∨
    env.pngFetchOk j = false

theorem stage2Step_mono (env : Env) (st : List String × Nat) (j : String)
    (x : String) (h : x ∈ st.1) : x ∈ (stage2Step env st j).1 := by
  unfold stage2Step
  by_cases hc : st.1.contains (pngOf j) = true
  · rw [if_pos hc]
    exact h
  · rw [if_neg hc]
    cases hr : env.replicateOk j with
    | true =>
      simp only [hr, if_true]
      cases hf : env.pngFetchOk j with
      | true =>
        simp only [hf, if_true]
        exact List.mem_cons_of_mem _ h
      | false =>
        simp only [hf, Bool.false_eq_true, if_false]
        exact h
    | false =>
      simp only [hr, Bool.false_eq_true, if_false]
      exact h

theorem stage2_fold_mono (env : Env) (js : List String) :
    ∀ (st : List String × Nat) (x : String), x ∈ st.1 →
      x ∈ (js.foldl (stage2Step env) st).1 := by
  induction js with
  | nil => intro st x h; exact h
  | cons j js ih =>
    intro st x h
    rw [List.foldl_cons]
    exact ih _ x (stage2Step_mono env st j x h)

theorem stage2Done_mono (env : Env) (pngs pngs' : List String)
    (hsub : ∀ x ∈ pngs, x ∈ pngs') (j : String) (h : stage2Done env pngs j) :
    stage2Done env pngs' j := by
  rcases h with h | h | h
  · exact Or.inl ((contains_iff_mem _ _).mpr (hsub _ ((contains_iff_mem _ _).mp h)))
  · exact Or.inr (Or.inl h)
  · exact Or.inr (Or.inr h)

theorem stage2Step_done (env : Env) (st : List String × Nat) (j : String) :
    stage2Done env (stage2Step env st j).1 j := by
  by_cases hc : st.1.contains (pngOf j) = true
  · have hx : (stage2Step env st j).1 = st.1 := by
      unfold stage2Step
      rw [if_pos hc]
    unfold stage2Done
    rw [hx]
    exact Or.inl hc
  · cases hr : env.replicateOk j with
    | true =>
      cases hf : env.pngFetchOk j with
      | true =>
        have hx : (stage2Step env st j).1 = pngOf j :: st.1 := by
          unfold stage2Step
          rw [if_neg hc]
          simp [hr, hf]
        unfold stage2Done
        rw [hx]
        exact Or.inl ((contains_iff_mem _ _).mpr (List.mem_cons_self _ _))
      | false =>
        unfold stage2Done
        exact Or.inr (Or.inr hf)
    | false =>
      unfold stage2Done
      exact Or.inr (Or.inl hr)

theorem stage2_fold_done (env : Env) (js : List String) :
    ∀ st : List String × Nat, ∀ j ∈ js,
      stage2Done env (js.foldl (stage2Step env) st).1 j := by
  induction js with
  | nil => intro st j hj; simp at hj
  | cons j0 js ih =>
    intro st j hj
    rw [List.foldl_cons]
    rcases List.mem_cons.mp hj with h | h
    · subst h
      exact stage2Done_mono env _ _
        (fun x hx => stage2_fold_mono env js _ x hx) j
        (stage2Step_done env st j)
    · exact ih _ j h

theorem stage2_fold_stable (env : Env) (js : List String) :
    ∀ st : List String × Nat, (∀ j ∈ js, stage2Done env st.1 j) →
      (js.foldl (stage2Step env) st).1 = st.1 := by
  induction js with
  | nil => intro st _; rfl
  | cons j js ih =>
    intro st h
    have hstep : (stage2Step env st j).1 = st.1 := by
      unfold stage2Step
      rcases h j (List.mem_cons_self j js) with hc | hr | hf
      · rw [if_pos hc]
      · by_cases hc : st.1.contains (pngOf j) = true
        · rw [if_pos hc]
        · rw [if_neg hc]
          simp [hr]
      · by_cases hc : st.1.contains (pngOf j) = true
        · rw [if_pos hc]
        · rw [if_neg hc]
          cases hr : env.replicateOk j with
          | true => simp [hr, hf]
          | false => simp [hr]
    rw [List.foldl_cons, ih (stage2Step env st j) (by
      intro j' hj'
      rw [hstep]
      exact h j' (List.mem_cons_of_mem _ hj')), hstep]

theorem stage2_pngs_idem (env : Env) (js : List String) (p0 : List String) :
    (js.foldl (stage2Step env) ((js.foldl (stage2Step env) (p0, 0)).1, 0)).1 =
      (js.foldl (stage2Step env) (p0, 0)).1 :=
  stage2_fold_stable env js _ (fun j hj => stage2_fold_done env js (p0, 0) j hj)

/-! ### Stage-3 re-run behaviour -/

/-- The (name, processed content) pairs stage 3 writes for the source
fragments, given the upload environment it runs with. -/
def stage3Pairs (uenv : UploadEnv) (srcs : List (String × List (String × YVal))) :
    List (String × List (String × YVal)) :=
  srcs.map (fun nf => (nf.1, (process_yaml_content uenv nf.2).1))

theorem akeys_stage3Pairs (uenv : UploadEnv)
    (srcs : List (String × List (String × YVal))) :
    akeys (stage3Pairs uenv srcs) = akeys srcs := by
  induction srcs with
  | nil => rfl
  | cons nf srcs ih =>
    show nf.1 :: akeys (stage3Pairs uenv srcs) = nf.1 :: akeys srcs
    rw [ih]

theorem stage3_fold_outs (uenv : UploadEnv)
    (srcs : List (String × List (String × YVal))) :
    ∀ (outs : List (String × List (String × YVal))) (c : Nat),
      (srcs.foldl (stage3Frag uenv) (outs, c)).1 =
        aupdate outs (stage3Pairs uenv srcs) := by
  induction srcs with
  | nil => intro outs c; rfl
  | cons nf srcs ih =>
    intro outs c
    rw [List.foldl_cons]
    exact ih _ _

theorem stage3_state (env : Env) (fs : FS) :
    (stage3 env fs).1 = { fs with outYamls := (
      aset (aupdate fs.outYamls (stage3Pairs (uploadEnvOf env fs.pngs) fs.srcYamls))
        "datatable.yaml"
        (create_datatable ((aupdate fs.outYamls
          (stage3Pairs (uploadEnvOf env fs.pngs) fs.srcYamls)).map
            (fun nf => nf.2)))) } := by
  show ({ fs with outYamls := (
      aset (fs.srcYamls.foldl (stage3Frag (uploadEnvOf env fs.pngs))
        (fs.outYamls, 0)).1 "datatable.yaml"
        (create_datatable ((fs.srcYamls.foldl (stage3Frag (uploadEnvOf env fs.pngs))
          (fs.outYamls, 0)).1.map (fun nf => nf.2)))) } : FS) = _
  rw [stage3_fold_outs]

/-- Running stage 3 a second time on its own result changes nothing: each
fragment output is overwritten with the same content, and the re-merged
datatable (which now also reads the previous `datatable.yaml`) is absorbed. -/
theorem stage3_idem (env : Env) (fs : FS)
    (hnn : (akeys fs.srcYamls).Nodup)
    (hdt : "datatable.yaml" ∉ akeys fs.srcYamls)
    (hout : "datatable.yaml" ∉ akeys fs.outYamls) :
    (stage3 env (stage3 env fs).1).1 = (stage3 env fs).1 := by
  rw [stage3_state env fs]
  rw [stage3_state env _]
  generalize hPdef : stage3Pairs (uploadEnvOf env fs.pngs) fs.srcYamls = P
  have hPkeys : akeys P = akeys fs.srcYamls := by
    rw [← hPdef]
    exact akeys_stage3Pairs _ _
  generalize hO1 : aupdate fs.outYamls P = O1
  have hO1keys : "datatable.yaml" ∉ akeys O1 := by
    rw [← hO1]
    exact not_mem_akeys_aupdate _ _ _ hout (by rw [hPkeys]; exact hdt)
  generalize hdt1 : create_datatable (O1.map (fun nf => nf.2)) = dt1
  -- the second pass rewrites the same fragment outputs
  have hupd : aupdate (aset O1 "datatable.yaml" dt1) P =
      aset O1 "datatable.yaml" dt1 := by
    apply aupdate_eq_self
    intro kv hkv
    have hkmem : kv.1 ∈ akeys P := List.mem_map_of_mem Prod.fst hkv
    have hkne : kv.1 ≠ "datatable.yaml" := by
      intro hh
      rw [hh] at hkmem
      rw [hPkeys] at hkmem
      exact hdt hkmem
    rw [aget_aset_ne _ _ _ _ hkne, ← hO1]
    exact aget_aupdate_of_mem P _ _ _ (by rw [hPkeys]; exact hnn) hkv
  rw [hupd]
  -- the re-merged datatable is absorbed
  have habs : create_datatable ((aset O1 "datatable.yaml" dt1).map (fun nf => nf.2))
      = dt1 := by
    rw [aset_append_of_not_mem _ _ _ hO1keys, List.map_append, ← hdt1]
    exact create_datatable_absorb (O1.map (fun nf => nf.2))
  rw [habs, aset_aset_self]

/-- A state in which each stage individually has nothing left to change is a
fixed point of the whole pipeline. -/
theorem runPipeline_fp_general (env : Env) (A : FS)
    (ht : env.hasReplicateToken = true)
    (h1 : (stage1 env A).1 = A.jpgs)
    (h2 : (stage2 env A).1 = A.pngs)
    (h3 : (stage3 env A).1 = A) :
    (runPipeline env A).1 = A := by
  have hrunState : (runPipeline env A).1 = (stage3 env { A with
      jpgs := (stage1 env A).1,
      pngs := (stage2 env { A with jpgs := (stage1 env A).1 }).1 }).1 := by
    simp [runPipeline, ht]
  rw [hrunState, h1]
  have hin : ({ A with jpgs := A.jpgs } : FS) = A := rfl
  rw [hin, h2]
  have heta : ({ A with jpgs := A.jpgs, pngs := A.pngs } : FS) = A := rfl
  rw [heta]
  exact h3

/-- After one full run every artifact check hits or its cause persists, so
the filesystem state is a fixed point of the pipeline (given distinct
fragment names, none of them `datatable.yaml`, and no pre-existing
`datatable.yaml` output). -/
theorem runPipeline_fixed_point (env : Env) (fs : FS)
    (ht : env.hasReplicateToken = true)
    (hnn : (akeys fs.srcYamls).Nodup)
    (hdt : "datatable.yaml" ∉ akeys fs.srcYamls)
    (hout : "datatable.yaml" ∉ akeys fs.outYamls) :
    (runPipeline env (runPipeline env fs).1).1 = (runPipeline env fs).1 := by
  have hrunState : (runPipeline env fs).1 = (stage3 env { fs with
      jpgs := (stage1 env fs).1,
      pngs := (stage2 env { fs with jpgs := (stage1 env fs).1 }).1 }).1 := by
    simp [runPipeline, ht]
  rw [hrunState]
  apply runPipeline_fp_general env _ ht
  · exact stage1_jpgs_idem env (stage1Tasks fs.srcYamls) fs.jpgs
  · exact stage2_pngs_idem env (stage1 env fs).1 fs.pngs
  · exact stage3_idem env
      { fs with
        jpgs := (stage1 env fs).1
        pngs := (stage2 env { fs with jpgs := (stage1 env fs).1 }).1 }
      hnn hdt hout

/-- A deterministic environment in which every provider call succeeds. -/
def envC10 : Env :=
  ⟨false, true, fun _ => some "http://img.example/chair.jpg", fun _ => true,
   fun _ => true, fun _ => true, fun _ => some "https://i.ibb.co/abc.png"⟩

/-- A fresh data store holding one fragment with one bare-year record. -/
def fsC10 : FS :=
  ⟨[], [], [("vitra.yaml", [("Vitra", .yDict [("Chair", .yInt 1956)])])], []⟩

/-- C10 counterexample: on a catalog that the first run fully enriches (5
HTTP calls), the second run still performs one outbound HTTP call — stage 3
re-reads the raw fragment, whose record carries no hosting marker, and
re-uploads the processed image — so the second run does not make zero
network calls. -/
theorem second_run_performs_network_calls :
    (runPipeline envC10 fsC10).2.1 = 5 ∧
    (runPipeline envC10 (runPipeline envC10 fsC10).1).2.1 = 1 := ⟨rfl, rfl⟩

/-- C10 (amended): re-running the pipeline is idempotent on the filesystem
state — with distinct fragment names, none of them `datatable.yaml`, and no
prior datatable output, the entire state after the second run equals the
state after the first, so the output catalogs are identical — but the second
run is not free of network calls: stages 1 and 2 skip via their on-disk
existence checks (0 calls each in the example), while stage 3, which
re-reads raw fragments that never carry the hosting marker, re-uploads each
record whose processed PNG exists (1 call in the example). -/
theorem pipeline_second_run_behavior :
    (∀ (env : Env) (fs : FS), env.hasReplicateToken = true →
      (akeys fs.srcYamls).Nodup →
      "datatable.yaml" ∉ akeys fs.srcYamls →
      "datatable.yaml" ∉ akeys fs.outYamls →
      (runPipeline env (runPipeline env fs).1).1 = (runPipeline env fs).1) ∧
    (stage1 envC10 (runPipeline envC10 fsC10).1).2 = 0 ∧
    (stage2 envC10 (runPipeline envC10 fsC10).1).2 = 0 ∧
    (stage3 envC10 (runPipeline envC10 fsC10).1).2 = 1 := by
  refine ⟨?_, rfl, rfl, rfl⟩
  intro env fs ht hnn hdt hout
  exact runPipeline_fixed_point env fs ht hnn hdt hout

theorem pipeline_second_run_behavior_witness :
    (runPipeline envC10 (runPipeline envC10 fsC10).1).1 =
      (runPipeline envC10 fsC10).1 :=
  pipeline_second_run_behavior.1 envC10 fsC10 rfl (by decide) (by decide) (by decide)
